import Mathlib

/-!
Verification development for the XMLDedupe pipeline
(`Streamlit_XML_AI_Agent.py`).

The Python source is shallowly embedded:
* XML attributes read with `elem.get(attr)` (no default) are `Option String`;
  attributes read with `elem.get(attr, "")` are plain `String` (absence ↦ `""`).
* Python `dict`s (which preserve insertion order) are association lists;
  Python `set`s are insertion-ordered duplicate-free lists (every observable
  use of a set in the source goes through `sorted`, `min`, or set equality,
  which are order-independent, so this determinization is faithful).
* Python's `sorted` raises `TypeError` when it compares values of
  incomparable types (`int` vs `str`, `None` vs `str`); sorting is therefore
  embedded as an `Option`-returning insertion sort (stable, as Python's sort
  is) whose comparator returns `none` exactly on such mixed comparisons.
* `ET.tostring` raises on a `None` attribute value; serialization is embedded
  as a check that every emitted dependent attribute is present.
-/

namespace XMLDedupe

/-- An XML attribute value as returned by `elem.get(a)`: `none` when absent. -/
abbrev Attr := Option String

/-- A dependent, as collected at source line 53: the `(id, name)` pair. -/
abbrev Dep := Attr × Attr

/-- Python `str.strip()` on the character-list level. -/
def stripData (l : List Char) : List Char :=
  ((l.dropWhile Char.isWhitespace).reverse.dropWhile Char.isWhitespace).reverse

/-- Python `t.strip()`. -/
def pyStrip (s : String) : String := String.mk (stripData s.data)

/-- Worker for Python `text.split(",")`: accumulates the current chunk
(reversed) and cuts at every `','`. -/
def splitCommaData : List Char → List Char → List (List Char)
  | [], acc => [acc.reverse]
  | c :: cs, acc =>
      if c = ',' then acc.reverse :: splitCommaData cs []
      else splitCommaData cs (c :: acc)

/-- Python `text.split(",")` (note `"".split(",") = [""]`). -/
def pySplitComma (s : String) : List String :=
  (splitCommaData s.data []).map String.mk

/-- Source lines 26–30, `_split_field`: split on `,`, strip each token, drop
tokens that are empty after stripping; falsy input yields `[]`. -/
def _split_field (text : String) : List String :=
  if text = "" then []
  else ((pySplitComma text).map pyStrip).filter (fun t => t ≠ "")

/-- Python `set.add`: append the element unless already present
(insertion-ordered set model). -/
def addSet {α : Type} [DecidableEq α] (l : List α) (x : α) : List α :=
  if x ∈ l then l else l ++ [x]

/-- Python `set.update`: add every element of `xs` in order. -/
def updateSet {α : Type} [DecidableEq α] (l : List α) (xs : List α) : List α :=
  xs.foldl addSet l

/-- The per-name aggregate built at source lines 59–62:
`{"values": set(), "dependents": set()}`. -/
structure NameInfo where
  values : List String
  deps : List Dep
deriving DecidableEq

/-- One parsed `<option>` element: `name`/`value` attributes via
`opt.get(·, "")` (so absence is `""`), dependents via `d.get("id")`,
`d.get("name")` (so absence is `none`). -/
structure InOption where
  name : String
  value : String
  deps : List Dep
deriving DecidableEq

/-- The mutable state of `aggregate_per_name` (source lines 40–42):
`per_name`, `name_first_index`, `appearance_counter`. -/
structure AggState where
  per_name : List (String × NameInfo)
  fi : List (String × Nat)
  counter : Nat
deriving DecidableEq

/-- Source lines 56–67, the body of the `for i, name in enumerate(names)`
loop: pair the name with `values[i]` / last value / `""`, create the
aggregate if absent, add the value, union the dependents, and record the
first-appearance index for a fresh name. -/
def aggNameStep (deps : List Dep) (values : List String) (st : AggState)
    (i : Nat) (name : String) : AggState :=
  let value := values.getD i (values.getLastD "")
  let pn0 := if st.per_name.any (fun p => p.1 = name) then st.per_name
             else st.per_name ++ [(name, ⟨[], []⟩)]
  let pn := pn0.map (fun p => if p.1 = name
      then (p.1, ⟨addSet p.2.values value, updateSet p.2.deps deps⟩) else p)
  if st.fi.any (fun p => p.1 = name) then ⟨pn, st.fi, st.counter⟩
  else ⟨pn, st.fi ++ [(name, st.counter)], st.counter + 1⟩

/-- The `enumerate(names)` loop of source lines 56–67, with explicit index. -/
def aggNamesLoop (deps : List Dep) (values : List String) :
    AggState → Nat → List String → AggState
  | st, _, [] => st
  | st, i, n :: ns =>
      aggNamesLoop deps values (aggNameStep deps values st i n) (i + 1) ns

/-- Source lines 44–67: processing of one `<option>` element. -/
def aggOptStep (st : AggState) (opt : InOption) : AggState :=
  aggNamesLoop opt.deps (_split_field opt.value) st 0 (_split_field opt.name)

/-- Source lines 32–69, `aggregate_per_name`. -/
def aggregate_per_name (doc : List InOption) : AggState :=
  doc.foldl aggOptStep ⟨[], [], 0⟩

/-- Lexicographic comparison of character lists by code point — Python's
string comparison. -/
def cmpChars : List Char → List Char → Ordering
  | [], [] => .eq
  | [], _ :: _ => .lt
  | _ :: _, [] => .gt
  | a :: as, b :: bs =>
      match compare a.toNat b.toNat with
      | .lt => .lt
      | .gt => .gt
      | .eq => cmpChars as bs

/-- Python string comparison. -/
def cmpStr (a b : String) : Ordering := cmpChars a.data b.data

/-- Python comparison of two attribute values: `None` compares equal only to
`None`; comparing `None` with a string raises `TypeError` (`none`). -/
def cmpAttr : Attr → Attr → Option Ordering
  | none, none => some .eq
  | some a, some b => some (cmpStr a b)
  | _, _ => none

/-- Python comparison of two `(id, name)` tuples: lexicographic, erroring as
soon as an incomparable component pair is reached. -/
def cmpDep (a b : Dep) : Option Ordering :=
  match cmpAttr a.1 b.1 with
  | none => none
  | some .lt => some .lt
  | some .gt => some .gt
  | some .eq => cmpAttr a.2 b.2

/-- Insert into a sorted prefix, Python-style: stop before the first strictly
greater element (stable), propagating a comparison `TypeError` as `none`. -/
def pyInsert {α : Type} (cmp : α → α → Option Ordering) (x : α) :
    List α → Option (List α)
  | [] => some [x]
  | y :: ys =>
      match cmp x y with
      | none => none
      | some .lt => some (x :: y :: ys)
      | some .eq => (pyInsert cmp x ys).map (y :: ·)
      | some .gt => (pyInsert cmp x ys).map (y :: ·)

/-- Python `sorted`, as a stable insertion sort that propagates comparison
errors. -/
def pySort {α : Type} (cmp : α → α → Option Ordering) (l : List α) :
    Option (List α) :=
  l.foldlM (fun acc x => pyInsert cmp x acc) []

/-- `sorted(info["dependents"])` (source lines 79 and 81). -/
def sortDeps (l : List Dep) : Option (List Dep) := pySort cmpDep l

/-- Python `v.isdigit()` (restricted to ASCII digits). -/
def pyIsDigit (s : String) : Bool := !s.data.isEmpty && s.data.all Char.isDigit

/-- Python `int(v)` on an all-digit string. -/
def natOfDigits (l : List Char) : Nat :=
  l.foldl (fun n c => n * 10 + (c.toNat - 48)) 0

/-- The sort key of source line 91: `int(v) if v.isdigit() else v`. -/
inductive PyKey where
  | int : Nat → PyKey
  | str : String → PyKey
deriving DecidableEq

/-- `int(v) if v.isdigit() else v`. -/
def valueKey (v : String) : PyKey :=
  if pyIsDigit v then .int (natOfDigits v.data) else .str v

/-- Python comparison of two sort keys: comparing an `int` key with a `str`
key raises `TypeError`. -/
def cmpKey : PyKey → PyKey → Option Ordering
  | .int a, .int b => some (compare a b)
  | .str a, .str b => some (cmpStr a b)
  | _, _ => none

/-- Comparison of two values through their sort keys (source line 91). -/
def cmpValue (a b : String) : Option Ordering := cmpKey (valueKey a) (valueKey b)

/-- `sorted(data["values"], key=lambda v: (int(v) if v.isdigit() else v))`. -/
def sortValues (l : List String) : Option (List String) := pySort cmpValue l

/-- `name_first_index.get(n, 10**9)` (source lines 88 and 90). -/
def fiGet (fi : List (String × Nat)) (n : String) : Nat :=
  ((fi.find? (fun p => p.1 = n)).map Prod.snd).getD (10 ^ 9)

/-- Insertion step of the stable sort of member names by first-appearance
index (source line 90). -/
def insertByFi (fi : List (String × Nat)) (x : String) :
    List String → List String
  | [] => [x]
  | y :: ys => if fiGet fi x < fiGet fi y then x :: y :: ys
               else y :: insertByFi fi x ys

/-- `sorted(data["names"], key=lambda x: name_first_index.get(x, 10**9))`.
Stable and error-free (the keys are integers). -/
def sortNamesByFi (fi : List (String × Nat)) (l : List String) : List String :=
  l.foldl (fun acc x => insertByFi fi x acc) []

/-- `min(name_first_index.get(n, 10**9) for n in data["names"])`
(source line 88; the names list of a group is never empty). -/
def minFi (fi : List (String × Nat)) : List String → Nat
  | [] => 10 ^ 9
  | n :: ns => ns.foldl (fun m x => Nat.min m (fiGet fi x)) (fiGet fi n)

/-- The value of one `groups_map` entry (source line 81). -/
structure GroupData where
  names : List String
  values : List String
  dependents : List Dep
deriving DecidableEq

/-- One output group (source lines 89–94). -/
structure Group where
  names : List String
  values : List String
  dependents : List Dep
  order_key : Nat
deriving DecidableEq

/-- Source lines 79–83: register one `(name, info)` pair in `groups_map`
under its `deps_key` (the entry's `dependents` field is `sorted(deps)`,
computed at creation, i.e. the key itself). -/
def gmAdd (gm : List (List Dep × GroupData)) (dk : List Dep) (name : String)
    (info : NameInfo) : List (List Dep × GroupData) :=
  let gm0 := if gm.any (fun p => p.1 = dk) then gm else gm ++ [(dk, ⟨[], [], dk⟩)]
  gm0.map (fun p => if p.1 = dk
      then (p.1, ⟨addSet p.2.names name, updateSet p.2.values info.values,
                  p.2.dependents⟩)
      else p)

/-- The `for name, info in per_name.items()` loop of source lines 78–83;
`none` when `sorted` raises on an incomparable dependent pair. -/
def buildGroupsMap (pn : List (String × NameInfo)) :
    Option (List (List Dep × GroupData)) :=
  pn.foldlM (fun gm p => do
    let dk ← sortDeps p.2.deps
    pure (gmAdd gm dk p.1 p.2)) []

/-- Source lines 87–94: turn one `groups_map` entry into a group; `none` when
the value sort of line 91 raises `TypeError`. -/
def mkGroup (fi : List (String × Nat)) (p : List Dep × GroupData) :
    Option Group := do
  let vs ← sortValues p.2.values
  pure { names := sortNamesByFi fi p.2.names
         values := vs
         dependents := p.2.dependents
         order_key := minFi fi p.2.names }

/-- Insertion step of the stable `groups.sort(key=lambda g: g["order_key"])`
(source line 97). -/
def insertGroup (x : Group) : List Group → List Group
  | [] => [x]
  | y :: ys => if x.order_key < y.order_key then x :: y :: ys
               else y :: insertGroup x ys

/-- `groups.sort(key=lambda g: g["order_key"])` (stable, integer keys). -/
def sortGroups (l : List Group) : List Group :=
  l.foldl (fun acc x => insertGroup x acc) []

/-- Source lines 71–98, `group_by_deps`; `none` exactly when one of the two
`sorted` calls raises `TypeError`. -/
def group_by_deps (pn : List (String × NameInfo)) (fi : List (String × Nat)) :
    Option (List Group) := do
  let gm ← buildGroupsMap pn
  let groups ← gm.mapM (mkGroup fi)
  pure (sortGroups groups)

/-- The aggregation-plus-grouping front of the pipeline
(source lines 125–126). -/
def pipelineGroups (doc : List InOption) : Option (List Group) :=
  let st := aggregate_per_name doc
  group_by_deps st.per_name st.fi

/-- Python `sep.join`: concatenate the parts with the separator between
consecutive parts. -/
def joinWith (sep : List Char) : List (List Char) → List Char
  | [] => []
  | [p] => p
  | p :: q :: ps => p ++ sep ++ joinWith sep (q :: ps)

/-- Python `",".join(l)`. -/
def joinComma (l : List String) : String :=
  String.mk (joinWith [','] (l.map String.data))

/-- One `<option>` element of the cleaned document (source lines 131–142):
`name` and `value` attributes plus the dependent children's `(id, name)`
attribute pairs. -/
structure CleanOption where
  name : String
  value : String
  deps : List Dep
deriving DecidableEq

/-- Source lines 131–142: render one group as a cleaned `<option>` element. -/
def groupToClean (g : Group) : CleanOption :=
  { name := joinComma g.names, value := joinComma g.values, deps := g.dependents }

/-- `ET.tostring` serializes a dependent element iff neither of its carried
attribute values is `None` ("cannot serialize None" otherwise). -/
def serializableDep (d : Dep) : Bool := d.1.isSome && d.2.isSome

/-- Source lines 118–144, `generate_clean_xml_from_root`: the full
clean-and-group pipeline producing the cleaned document, abstracted to the
list of its `<option>` elements; `none` when a `sorted` call raises or the
serialization of line 144 fails on a `None` attribute. -/
def generate_clean_xml_from_root (doc : List InOption) :
    Option (List CleanOption) := do
  let st := aggregate_per_name doc
  let groups ← group_by_deps st.per_name st.fi
  let cos := groups.map groupToClean
  if cos.all (fun c => c.deps.all serializableDep) then pure cos else none

/-- Re-parsing the cleaned document text (source line 190): the attribute
strings round-trip through serialization. -/
def reparse (c : CleanOption) : InOption := ⟨c.name, c.value, c.deps⟩

/-- A group rendered as a cleaned `<option>` and re-parsed as fresh input
(the second-run input element). -/
def cleanOpt (g : Group) : InOption := reparse (groupToClean g)

/-- One row of the exported mapping table (source lines 222–228). -/
structure MappingRow where
  sr : Nat
  group_id : String
  option_name : String
  option_value : String
  dependents : String
deriving DecidableEq

/-- `f"{dep_id}:{dep_name}"` with `d.get("id", "")` defaults
(source lines 207–209). -/
def depToken (d : Dep) : String := (d.1.getD "") ++ ":" ++ (d.2.getD "")

/-- Python `";".join(l)` (source line 210). -/
def joinSemi (l : List String) : String :=
  String.mk (joinWith [';'] (l.map String.data))

/-- Source lines 195–228, body of the per-option export loop: raw
`split(",")` of the `name` and `value` attributes, per-token strip, last-value
fallback, and a serial number continuing from `startSr` rows already emitted. -/
def rowsForOption (startSr : Nat) (group_id : String) (opt : CleanOption) :
    List MappingRow :=
  let values := pySplitComma opt.value
  let dependents_str := joinSemi (opt.deps.map depToken)
  (pySplitComma opt.name).enum.map (fun p =>
    { sr := startSr + p.1 + 1
      group_id := group_id
      option_name := pyStrip p.2
      option_value :=
        if p.1 < values.length then pyStrip (values.getD p.1 "")
        else if values ≠ [] then pyStrip (values.getLastD "") else ""
      dependents := dependents_str })

/-- Source lines 192–230: the full mapping-rows loop over the cleaned
document's `<option>` elements, with 1-based group numbers `G1, G2, …`. -/
def mapping_rows (opts : List CleanOption) : List MappingRow :=
  opts.enum.foldl
    (fun (rows : List MappingRow) p =>
      rows ++ rowsForOption rows.length ("G" ++ toString (p.1 + 1)) p.2) []

/-! ## Specification-side notions (for stating the claims) -/

/-- All names appearing in any option, exploded with `_split_field`, in
document order. -/
def explodedNames (doc : List InOption) : List String :=
  (doc.map (fun o => _split_field o.name)).flatten

/-- Keep-first deduplication (the key order of a Python dict filled in a
single pass). -/
def dedupKeepFirst {α : Type} [DecidableEq α] (l : List α) : List α :=
  l.foldl addSet []

/-- The keys of `per_name`, in insertion order. -/
def pnKeys (st : AggState) : List String := st.per_name.map Prod.fst

/-- The value set recorded for a name in `per_name` (empty if absent). -/
def pnValues (st : AggState) (n : String) : List String :=
  ((st.per_name.find? (fun p => p.1 = n)).map (fun p => p.2.values)).getD []

/-- The dependent set recorded for a name in `per_name` (empty if absent). -/
def pnDeps (st : AggState) (n : String) : List Dep :=
  ((st.per_name.find? (fun p => p.1 = n)).map (fun p => p.2.deps)).getD []

/-- The `name_first_index` dict determined by a key list: each key mapped to
its position. -/
def fiOfKeys (L : List String) : List (String × Nat) :=
  L.enum.map (fun p => (p.2, p.1))

/-- The key list of `groups_map`: the distinct sorted dependent lists, in
first-appearance order over `per_name`. -/
def gmKeys (pn : List (String × NameInfo)) : List (List Dep) :=
  dedupKeepFirst (pn.filterMap (fun q => sortDeps q.2.deps))

/-- The `groups_map` entry for a given `deps_key`: the names whose sorted
dependent list is that key (in `per_name` order) and the union of their value
sets. -/
def gmEntry (pn : List (String × NameInfo)) (dk : List Dep) : GroupData :=
  ⟨(pn.filter (fun q => sortDeps q.2.deps = some dk)).map Prod.fst,
   ((pn.filter (fun q => sortDeps q.2.deps = some dk)).map
      (fun q => q.2.values)).foldl updateSet [],
   dk⟩

/-- The full dependent set of a name: the union of the dependents of every
option whose exploded name list contains it. -/
def depsOfName (doc : List InOption) (n : String) : Finset Dep :=
  (((doc.filter (fun o => n ∈ _split_field o.name)).map InOption.deps).flatten).toFinset

/-- The `deps_key` a name contributes in the grouping step: its sorted
recorded dependent set (defaulting to `[]` if the sort raises). -/
def depKeyOf (st : AggState) (n : String) : List Dep :=
  (sortDeps (pnDeps st n)).getD []

/-! ## Set-model utilities -/

theorem mem_addSet {α : Type} [DecidableEq α] {l : List α} {x y : α} :
    y ∈ addSet l x ↔ y ∈ l ∨ y = x := by
  simp only [addSet]
  split
  · rename_i h
    exact ⟨Or.inl, fun h1 => h1.elim id (fun e => e ▸ h)⟩
  · simp

theorem self_mem_addSet {α : Type} [DecidableEq α] (l : List α) (x : α) :
    x ∈ addSet l x :=
  mem_addSet.mpr (Or.inr rfl)

theorem addSet_nodup {α : Type} [DecidableEq α] {l : List α} (h : l.Nodup)
    (x : α) : (addSet l x).Nodup := by
  simp only [addSet]
  split
  · exact h
  · rename_i hx
    simp [List.nodup_append, h, hx]

theorem addSet_of_mem {α : Type} [DecidableEq α] {l : List α} {x : α}
    (h : x ∈ l) : addSet l x = l := by
  simp [addSet, h]

theorem addSet_of_not_mem {α : Type} [DecidableEq α] {l : List α} {x : α}
    (h : x ∉ l) : addSet l x = l ++ [x] := by
  simp [addSet, h]

theorem mem_updateSet {α : Type} [DecidableEq α] {xs l : List α} {y : α} :
    y ∈ updateSet l xs ↔ y ∈ l ∨ y ∈ xs := by
  induction xs generalizing l with
  | nil => simp [updateSet]
  | cons x xs ih =>
      simp only [updateSet, List.foldl_cons] at *
      rw [ih, mem_addSet, List.mem_cons]
      tauto

theorem updateSet_nodup {α : Type} [DecidableEq α] {xs l : List α}
    (h : l.Nodup) : (updateSet l xs).Nodup := by
  induction xs generalizing l with
  | nil => exact h
  | cons x xs ih =>
      simp only [updateSet, List.foldl_cons] at *
      exact ih (addSet_nodup h x)

theorem toFinset_updateSet {α : Type} [DecidableEq α] (l xs : List α) :
    (updateSet l xs).toFinset = l.toFinset ∪ xs.toFinset := by
  ext a
  simp [mem_updateSet]

theorem updateSet_append {α : Type} [DecidableEq α] (l a b : List α) :
    updateSet l (a ++ b) = updateSet (updateSet l a) b := by
  simp [updateSet, List.foldl_append]

theorem updateSet_of_disjoint_nodup {α : Type} [DecidableEq α] :
    ∀ {xs l : List α}, (∀ x ∈ xs, x ∉ l) → xs.Nodup → updateSet l xs = l ++ xs := by
  intro xs
  induction xs with
  | nil => intro l _ _; simp [updateSet]
  | cons x xs ih =>
      intro l hd hn
      simp only [updateSet, List.foldl_cons] at *
      rw [addSet_of_not_mem (hd x (by simp))]
      have : updateSet (l ++ [x]) xs = (l ++ [x]) ++ xs := by
        apply ih
        · intro y hy
          simp only [List.mem_append, List.mem_singleton]
          rintro (h1 | rfl)
          · exact hd y (by simp [hy]) h1
          · exact (List.nodup_cons.mp hn).1 hy
        · exact (List.nodup_cons.mp hn).2
      simpa [List.append_assoc] using this

theorem mem_dedupKeepFirst {α : Type} [DecidableEq α] {l : List α} {y : α} :
    y ∈ dedupKeepFirst l ↔ y ∈ l := by
  have : dedupKeepFirst l = updateSet [] l := rfl
  rw [this, mem_updateSet]
  simp

theorem nodup_dedupKeepFirst {α : Type} [DecidableEq α] (l : List α) :
    (dedupKeepFirst l).Nodup := by
  have : dedupKeepFirst l = updateSet [] l := rfl
  rw [this]
  exact updateSet_nodup List.nodup_nil

theorem dedupKeepFirst_of_nodup {α : Type} [DecidableEq α] {l : List α}
    (h : l.Nodup) : dedupKeepFirst l = l := by
  have : dedupKeepFirst l = updateSet [] l := rfl
  rw [this, updateSet_of_disjoint_nodup (by simp) h]
  simp

theorem dedupKeepFirst_append {α : Type} [DecidableEq α] (a b : List α) :
    dedupKeepFirst (a ++ b) = updateSet (dedupKeepFirst a) b := by
  have h1 : dedupKeepFirst (a ++ b) = updateSet [] (a ++ b) := rfl
  have h2 : dedupKeepFirst a = updateSet [] a := rfl
  rw [h1, h2, updateSet_append]

theorem any_key_iff {κ β : Type} [DecidableEq κ] (l : List (κ × β)) (n : κ) :
    l.any (fun p => p.1 = n) = true ↔ n ∈ l.map Prod.fst := by
  simp only [List.any_eq_true, decide_eq_true_eq, List.mem_map]

theorem find?_key_map {κ β : Type} [DecidableEq κ] {u : κ × β → κ × β}
    (hu : ∀ p, (u p).1 = p.1) (l : List (κ × β)) (n : κ) :
    (l.map u).find? (fun p => p.1 = n) =
      (l.find? (fun p => p.1 = n)).map u := by
  induction l with
  | nil => rfl
  | cons p l ih =>
      by_cases h : p.1 = n
      · simp [List.find?_cons, hu p, h]
      · simp [List.find?_cons, hu p, h, ih]

theorem map_update_keys {κ β : Type} [DecidableEq κ] (l : List (κ × β))
    (f : κ × β → β) (n : κ) :
    (l.map (fun p => if p.1 = n then (p.1, f p) else p)).map Prod.fst =
      l.map Prod.fst := by
  rw [List.map_map]
  apply List.map_congr_left
  intro p _
  by_cases h : p.1 = n <;> simp [h]

theorem enumFrom_append_single {α : Type} (l : List α) (a : α) (k : Nat) :
    List.enumFrom k (l ++ [a]) = List.enumFrom k l ++ [(k + l.length, a)] := by
  induction l generalizing k with
  | nil => simp
  | cons b l ih =>
      simp only [List.cons_append, List.enumFrom_cons, ih, List.length_cons]
      have h : k + 1 + l.length = k + (l.length + 1) := by omega
      rw [h]

theorem fiOfKeys_append_single (L : List String) (n : String) :
    fiOfKeys (L ++ [n]) = fiOfKeys L ++ [(n, L.length)] := by
  simp [fiOfKeys, List.enum_eq_enumFrom, enumFrom_append_single]

theorem fiOfKeys_map_fst (L : List String) :
    (fiOfKeys L).map Prod.fst = L := by
  simp only [fiOfKeys, List.map_map]
  have : (Prod.fst ∘ fun p : Nat × String => (p.2, p.1)) = Prod.snd := by
    funext p; rfl
  rw [this, List.enum_map_snd]

/-! ## Aggregation: keys and first-index structure -/

theorem aggNameStep_keys (deps : List Dep) (values : List String)
    (st : AggState) (i : Nat) (name : String) :
    pnKeys (aggNameStep deps values st i name) = addSet (pnKeys st) name := by
  by_cases hpn : st.per_name.any (fun p => p.1 = name) = true
  · have hm : name ∈ pnKeys st := (any_key_iff _ _).mp hpn
    by_cases hfi : st.fi.any (fun p => p.1 = name) = true <;>
      simp only [aggNameStep, hpn, hfi, if_true, if_false, Bool.false_eq_true,
        pnKeys] <;>
      rw [map_update_keys] <;>
      exact (addSet_of_mem hm).symm
  · have hm : name ∉ pnKeys st := fun h => hpn ((any_key_iff _ _).mpr h)
    rw [Bool.not_eq_true] at hpn
    by_cases hfi : st.fi.any (fun p => p.1 = name) = true <;>
      simp only [aggNameStep, hpn, hfi, if_true, if_false, Bool.false_eq_true,
        pnKeys] <;>
      rw [map_update_keys, List.map_append] <;>
      exact (addSet_of_not_mem hm).symm

theorem aggNameStep_fi_counter (deps : List Dep) (values : List String)
    (st : AggState) (i : Nat) (name : String) :
    ((aggNameStep deps values st i name).fi,
      (aggNameStep deps values st i name).counter) =
      (if name ∈ st.fi.map Prod.fst then (st.fi, st.counter)
       else (st.fi ++ [(name, st.counter)], st.counter + 1)) := by
  by_cases hm : name ∈ st.fi.map Prod.fst
  · have hfi : st.fi.any (fun p => p.1 = name) = true := (any_key_iff _ _).mpr hm
    simp [aggNameStep, hfi, hm]
  · have hfi : st.fi.any (fun p => p.1 = name) = false := by
      rw [← Bool.not_eq_true]
      exact fun h => hm ((any_key_iff _ _).mp h)
    simp [aggNameStep, hfi, hm]

theorem aggNameStep_inv (deps : List Dep) (values : List String)
    (st : AggState) (i : Nat) (name : String)
    (h1 : st.fi = fiOfKeys (pnKeys st))
    (h2 : st.counter = (pnKeys st).length) :
    (aggNameStep deps values st i name).fi =
      fiOfKeys (pnKeys (aggNameStep deps values st i name)) ∧
    (aggNameStep deps values st i name).counter =
      (pnKeys (aggNameStep deps values st i name)).length := by
  have hk := aggNameStep_keys deps values st i name
  have hfc := aggNameStep_fi_counter deps values st i name
  have hkf : st.fi.map Prod.fst = pnKeys st := by rw [h1, fiOfKeys_map_fst]
  by_cases hm : name ∈ pnKeys st
  · rw [if_pos (by rw [hkf]; exact hm)] at hfc
    injection hfc with e1 e2
    rw [hk, addSet_of_mem hm]
    exact ⟨e1.trans h1, e2.trans h2⟩
  · rw [if_neg (by rw [hkf]; exact hm)] at hfc
    injection hfc with e1 e2
    rw [hk, addSet_of_not_mem hm]
    constructor
    · rw [e1, h1, h2, fiOfKeys_append_single]
    · rw [e2, h2]
      simp

theorem aggNamesLoop_inv (deps : List Dep) (values : List String) :
    ∀ (ns : List String) (st : AggState) (k : Nat),
    st.fi = fiOfKeys (pnKeys st) → st.counter = (pnKeys st).length →
    pnKeys (aggNamesLoop deps values st k ns) = updateSet (pnKeys st) ns ∧
    (aggNamesLoop deps values st k ns).fi =
      fiOfKeys (pnKeys (aggNamesLoop deps values st k ns)) ∧
    (aggNamesLoop deps values st k ns).counter =
      (pnKeys (aggNamesLoop deps values st k ns)).length := by
  intro ns
  induction ns with
  | nil =>
      intro st k h1 h2
      exact ⟨by simp [aggNamesLoop, updateSet], h1, h2⟩
  | cons n ns ih =>
      intro st k h1 h2
      simp only [aggNamesLoop]
      obtain ⟨s1, s2⟩ := aggNameStep_inv deps values st k n h1 h2
      obtain ⟨k1, k2, k3⟩ := ih (aggNameStep deps values st k n) (k + 1) s1 s2
      refine ⟨?_, k2, k3⟩
      rw [k1, aggNameStep_keys]
      rfl

theorem aggOptStep_inv (st : AggState) (opt : InOption)
    (h1 : st.fi = fiOfKeys (pnKeys st))
    (h2 : st.counter = (pnKeys st).length) :
    pnKeys (aggOptStep st opt) =
      updateSet (pnKeys st) (_split_field opt.name) ∧
    (aggOptStep st opt).fi = fiOfKeys (pnKeys (aggOptStep st opt)) ∧
    (aggOptStep st opt).counter = (pnKeys (aggOptStep st opt)).length :=
  aggNamesLoop_inv _ _ _ st 0 h1 h2

theorem aggregate_foldl_inv :
    ∀ (doc : List InOption) (st : AggState),
    st.fi = fiOfKeys (pnKeys st) → st.counter = (pnKeys st).length →
    pnKeys (doc.foldl aggOptStep st) =
      doc.foldl (fun L o => updateSet L (_split_field o.name)) (pnKeys st) ∧
    (doc.foldl aggOptStep st).fi =
      fiOfKeys (pnKeys (doc.foldl aggOptStep st)) ∧
    (doc.foldl aggOptStep st).counter =
      (pnKeys (doc.foldl aggOptStep st)).length := by
  intro doc
  induction doc with
  | nil => intro st h1 h2; exact ⟨rfl, h1, h2⟩
  | cons o doc ih =>
      intro st h1 h2
      simp only [List.foldl_cons]
      obtain ⟨s1, s2, s3⟩ := aggOptStep_inv st o h1 h2
      obtain ⟨k1, k2, k3⟩ := ih (aggOptStep st o) s2 s3
      exact ⟨by rw [k1, s1], k2, k3⟩

theorem explodedNames_cons (o : InOption) (doc : List InOption) :
    explodedNames (o :: doc) = _split_field o.name ++ explodedNames doc := by
  simp [explodedNames]

theorem foldl_updateSet_exploded :
    ∀ (doc : List InOption) (L : List String),
    doc.foldl (fun L o => updateSet L (_split_field o.name)) L =
      updateSet L (explodedNames doc) := by
  intro doc
  induction doc with
  | nil => intro L; simp [explodedNames, updateSet]
  | cons o doc ih =>
      intro L
      rw [List.foldl_cons, ih, explodedNames_cons, updateSet_append]

theorem aggregate_keys (doc : List InOption) :
    pnKeys (aggregate_per_name doc) = dedupKeepFirst (explodedNames doc) ∧
    (aggregate_per_name doc).fi =
      fiOfKeys (dedupKeepFirst (explodedNames doc)) ∧
    (aggregate_per_name doc).counter =
      (dedupKeepFirst (explodedNames doc)).length := by
  obtain ⟨k1, k2, k3⟩ := aggregate_foldl_inv doc ⟨[], [], 0⟩ rfl rfl
  have e : doc.foldl (fun L o => updateSet L (_split_field o.name))
      (pnKeys ⟨[], [], 0⟩) = dedupKeepFirst (explodedNames doc) := by
    rw [foldl_updateSet_exploded]
    rfl
  rw [aggregate_per_name]
  refine ⟨k1.trans e, ?_, ?_⟩
  · rw [k2, k1, e]
  · rw [k3, k1, e]

theorem pnKeys_nodup (doc : List InOption) :
    (pnKeys (aggregate_per_name doc)).Nodup := by
  rw [(aggregate_keys doc).1]
  exact nodup_dedupKeepFirst _

/-! ## Aggregation: per-name value content -/

theorem aggNameStep_per_name (deps : List Dep) (values : List String)
    (st : AggState) (i : Nat) (m : String) :
    (aggNameStep deps values st i m).per_name =
      (if st.per_name.any (fun p => p.1 = m) then st.per_name
       else st.per_name ++ [(m, ⟨[], []⟩)]).map
        (fun p => if p.1 = m then
          (p.1, (⟨addSet p.2.values (values.getD i (values.getLastD "")),
                 updateSet p.2.deps deps⟩ : NameInfo)) else p) := by
  by_cases hfi : st.fi.any (fun p => p.1 = m) = true <;>
    simp [aggNameStep, hfi]

theorem aggNameStep_pnValues (deps : List Dep) (values : List String)
    (st : AggState) (i : Nat) (m n : String) :
    pnValues (aggNameStep deps values st i m) n =
      if n = m then
        addSet (pnValues st n) (values.getD i (values.getLastD ""))
      else pnValues st n := by
  have hu : ∀ p : String × NameInfo,
      ((fun p : String × NameInfo => if p.1 = m then
        (p.1, (⟨addSet p.2.values (values.getD i (values.getLastD "")),
               updateSet p.2.deps deps⟩ : NameInfo)) else p) p).1 = p.1 := by
    intro p; by_cases h : p.1 = m <;> simp [h]
  rw [pnValues, aggNameStep_per_name, find?_key_map hu]
  by_cases hpn : st.per_name.any (fun p => p.1 = m) = true
  · rw [if_pos hpn]
    cases hfind : st.per_name.find? (fun p => p.1 = n) with
    | none =>
        by_cases hnm : n = m
        · subst hnm
          exfalso
          obtain ⟨e, he, hpe⟩ := List.any_eq_true.mp hpn
          have := (List.find?_eq_none.mp hfind) e he
          simp only [decide_eq_true_eq] at hpe this
          exact this hpe
        · simp [pnValues, hfind, hnm]
    | some e =>
        have he1 : e.1 = n := by
          have := List.find?_some hfind
          simpa using this
        by_cases hnm : n = m
        · subst hnm
          simp [pnValues, hfind, he1]
        · simp [pnValues, hfind, he1, hnm]
  · rw [if_neg hpn]
    have hnone : st.per_name.find? (fun p => p.1 = m) = none := by
      rw [List.find?_eq_none]
      intro x hx hpx
      exact hpn (List.any_eq_true.mpr ⟨x, hx, hpx⟩)
    rw [List.find?_append]
    by_cases hnm : n = m
    · subst hnm
      rw [hnone]
      simp [pnValues, hnone, List.find?_cons]
    · have hsing : ([(m, (⟨[], []⟩ : NameInfo))].find? (fun p => p.1 = n)) = none := by
        simp [List.find?_cons, Ne.symm hnm]
      rw [hsing]
      cases hfind : st.per_name.find? (fun p => p.1 = n) with
      | none => simp [pnValues, hfind, hnm]
      | some e =>
          have he1 : e.1 = n := by
            have := List.find?_some hfind
            simpa using this
          simp [pnValues, hfind, he1, hnm]

theorem pnValues_mono_step (deps : List Dep) (values : List String)
    (st : AggState) (i : Nat) (m n : String) :
    pnValues st n ⊆ pnValues (aggNameStep deps values st i m) n := by
  rw [aggNameStep_pnValues]
  split
  · exact fun y hy => mem_addSet.mpr (Or.inl hy)
  · exact fun y hy => hy

theorem pnValues_mono_loop (deps : List Dep) (values : List String) (n : String) :
    ∀ (ns : List String) (st : AggState) (k : Nat),
    pnValues st n ⊆ pnValues (aggNamesLoop deps values st k ns) n := by
  intro ns
  induction ns with
  | nil => intro st k; exact fun y hy => hy
  | cons x ns ih =>
      intro st k
      simp only [aggNamesLoop]
      exact fun y hy =>
        ih (aggNameStep deps values st k x) (k + 1)
          (pnValues_mono_step deps values st k x n hy)

theorem pnValues_mono_opt (st : AggState) (opt : InOption) (n : String) :
    pnValues st n ⊆ pnValues (aggOptStep st opt) n :=
  pnValues_mono_loop _ _ n _ st 0

theorem pnValues_mono_doc (n : String) :
    ∀ (doc : List InOption) (st : AggState),
    pnValues st n ⊆ pnValues (doc.foldl aggOptStep st) n := by
  intro doc
  induction doc with
  | nil => intro st; exact fun y hy => hy
  | cons o doc ih =>
      intro st
      simp only [List.foldl_cons]
      exact fun y hy => ih (aggOptStep st o) (pnValues_mono_opt st o n hy)

theorem aggNamesLoop_pnValues_get (deps : List Dep) (values : List String) :
    ∀ (ns : List String) (st : AggState) (k i : Nat) (n : String),
    ns[i]? = some n →
    values.getD (k + i) (values.getLastD "") ∈
      pnValues (aggNamesLoop deps values st k ns) n := by
  intro ns
  induction ns with
  | nil => intro st k i n h; simp at h
  | cons m ms ih =>
      intro st k i n h
      cases i with
      | zero =>
          have hm : m = n := by simpa using h
          subst hm
          simp only [aggNamesLoop]
          apply pnValues_mono_loop
          rw [aggNameStep_pnValues, if_pos rfl]
          exact self_mem_addSet _ _
      | succ i =>
          have h' : ms[i]? = some n := by simpa using h
          simp only [aggNamesLoop]
          have := ih (aggNameStep deps values st k m) (k + 1) i n h'
          have harith : k + 1 + i = k + (i + 1) := by omega
          rwa [harith] at this

/-! ## Aggregation: per-name dependent content -/

theorem updateSet_of_subset {α : Type} [DecidableEq α] :
    ∀ {xs l : List α}, (∀ x ∈ xs, x ∈ l) → updateSet l xs = l := by
  intro xs
  induction xs with
  | nil => intro l _; rfl
  | cons x xs ih =>
      intro l h
      simp only [updateSet, List.foldl_cons] at *
      rw [addSet_of_mem (h x (by simp))]
      exact ih (fun y hy => h y (by simp [hy]))

theorem updateSet_idem {α : Type} [DecidableEq α] (l xs : List α) :
    updateSet (updateSet l xs) xs = updateSet l xs :=
  updateSet_of_subset (fun x hx => mem_updateSet.mpr (Or.inr hx))

theorem aggNameStep_pnDeps (deps : List Dep) (values : List String)
    (st : AggState) (i : Nat) (m n : String) :
    pnDeps (aggNameStep deps values st i m) n =
      if n = m then updateSet (pnDeps st n) deps else pnDeps st n := by
  have hu : ∀ p : String × NameInfo,
      ((fun p : String × NameInfo => if p.1 = m then
        (p.1, (⟨addSet p.2.values (values.getD i (values.getLastD "")),
               updateSet p.2.deps deps⟩ : NameInfo)) else p) p).1 = p.1 := by
    intro p; by_cases h : p.1 = m <;> simp [h]
  rw [pnDeps, aggNameStep_per_name, find?_key_map hu]
  by_cases hpn : st.per_name.any (fun p => p.1 = m) = true
  · rw [if_pos hpn]
    cases hfind : st.per_name.find? (fun p => p.1 = n) with
    | none =>
        by_cases hnm : n = m
        · subst hnm
          exfalso
          obtain ⟨e, he, hpe⟩ := List.any_eq_true.mp hpn
          have := (List.find?_eq_none.mp hfind) e he
          simp only [decide_eq_true_eq] at hpe this
          exact this hpe
        · simp [pnDeps, hfind, hnm]
    | some e =>
        have he1 : e.1 = n := by
          have := List.find?_some hfind
          simpa using this
        by_cases hnm : n = m
        · subst hnm
          simp [pnDeps, hfind, he1]
        · simp [pnDeps, hfind, he1, hnm]
  · rw [if_neg hpn]
    have hnone : st.per_name.find? (fun p => p.1 = m) = none := by
      rw [List.find?_eq_none]
      intro x hx hpx
      exact hpn (List.any_eq_true.mpr ⟨x, hx, hpx⟩)
    rw [List.find?_append]
    by_cases hnm : n = m
    · subst hnm
      rw [hnone]
      simp [pnDeps, hnone, List.find?_cons]
    · have hsing : ([(m, (⟨[], []⟩ : NameInfo))].find? (fun p => p.1 = n)) = none := by
        simp [List.find?_cons, Ne.symm hnm]
      rw [hsing]
      cases hfind : st.per_name.find? (fun p => p.1 = n) with
      | none => simp [pnDeps, hfind, hnm]
      | some e =>
          have he1 : e.1 = n := by
            have := List.find?_some hfind
            simpa using this
          simp [pnDeps, hfind, he1, hnm]

theorem aggNamesLoop_pnDeps (deps : List Dep) (values : List String) :
    ∀ (ns : List String) (st : AggState) (k : Nat) (n : String),
    pnDeps (aggNamesLoop deps values st k ns) n =
      if n ∈ ns then updateSet (pnDeps st n) deps else pnDeps st n := by
  intro ns
  induction ns with
  | nil => intro st k n; simp [aggNamesLoop]
  | cons m ms ih =>
      intro st k n
      simp only [aggNamesLoop]
      rw [ih, aggNameStep_pnDeps]
      by_cases hnm : n = m
      · subst hnm
        by_cases hms : n ∈ ms
        · simp [hms, updateSet_idem]
        · simp [hms]
      · by_cases hms : n ∈ ms
        · simp [hms, hnm]
        · simp [hms, hnm, List.mem_cons]

theorem aggOptStep_pnDeps (st : AggState) (opt : InOption) (n : String) :
    pnDeps (aggOptStep st opt) n =
      if n ∈ _split_field opt.name then updateSet (pnDeps st n) opt.deps
      else pnDeps st n :=
  aggNamesLoop_pnDeps _ _ _ st 0 n

theorem depsOfName_append (doc : List InOption) (o : InOption) (n : String) :
    depsOfName (doc ++ [o]) n =
      depsOfName doc n ∪
        (if n ∈ _split_field o.name then o.deps.toFinset else ∅) := by
  rw [depsOfName, depsOfName, List.filter_append, List.map_append,
    List.flatten_append, List.toFinset_append]
  congr 1
  by_cases hmem : n ∈ _split_field o.name
  · simp [hmem]
  · simp [hmem]

theorem aggregate_pnDeps (doc : List InOption) (n : String) :
    (pnDeps (aggregate_per_name doc) n).toFinset = depsOfName doc n ∧
    (pnDeps (aggregate_per_name doc) n).Nodup := by
  induction doc using List.reverseRecOn with
  | nil =>
      constructor
      · rfl
      · exact List.nodup_nil
  | append_singleton doc o ih =>
      rw [aggregate_per_name, List.foldl_append, List.foldl_cons,
        List.foldl_nil]
      have e : List.foldl aggOptStep ⟨[], [], 0⟩ doc = aggregate_per_name doc :=
        rfl
      rw [e, aggOptStep_pnDeps, depsOfName_append]
      by_cases hmem : n ∈ _split_field o.name
      · rw [if_pos hmem, if_pos hmem]
        exact ⟨by rw [toFinset_updateSet, ih.1], updateSet_nodup ih.2⟩
      · rw [if_neg hmem, if_neg hmem]
        exact ⟨by rw [ih.1, Finset.union_empty], ih.2⟩

theorem getD_getLastD_mem (vs : List String) (i : Nat) (h : vs ≠ []) :
    vs.getD i (vs.getLastD "") ∈ vs := by
  by_cases hi : i < vs.length
  · rw [List.getD_eq_getElem?_getD, List.getElem?_eq_getElem hi]
    exact List.getElem_mem _
  · rw [List.getD_eq_default _ _ (Nat.le_of_not_lt hi)]
    cases vs with
    | nil => exact absurd rfl h
    | cons a l =>
        rw [List.getLastD_eq_getLast? , List.getLast?_eq_getLast (a :: l) (by simp)]
        simp only [Option.getD_some]
        exact List.getLast_mem _

theorem aggNamesLoop_pnValues_sub (deps : List Dep) (vs : List String) :
    ∀ (ns : List String) (st : AggState) (k : Nat) (n : String)
    (v : String), v ∈ pnValues (aggNamesLoop deps vs st k ns) n →
    v ∈ pnValues st n ∨
      (n ∈ ns ∧ (v ∈ vs ∨ (v = "" ∧ vs = []))) := by
  intro ns
  induction ns with
  | nil => intro st k n v hv; exact Or.inl hv
  | cons m ms ih =>
      intro st k n v hv
      simp only [aggNamesLoop] at hv
      rcases ih (aggNameStep deps vs st k m) (k + 1) n v hv with h | ⟨hn, hvv⟩
      · rw [aggNameStep_pnValues] at h
        by_cases hnm : n = m
        · subst hnm
          rw [if_pos rfl] at h
          rcases mem_addSet.mp h with h' | h'
          · exact Or.inl h'
          · by_cases hvs : vs = []
            · refine Or.inr ⟨by simp, Or.inr ⟨?_, hvs⟩⟩
              rw [h', hvs]
              rfl
            · refine Or.inr ⟨by simp, Or.inl ?_⟩
              rw [h']
              exact getD_getLastD_mem vs k hvs
        · rw [if_neg hnm] at h
          exact Or.inl h
      · exact Or.inr ⟨by simp [hn], hvv⟩

theorem aggOptStep_pnValues_sub (st : AggState) (opt : InOption) (n v : String)
    (h : v ∈ pnValues (aggOptStep st opt) n) :
    v ∈ pnValues st n ∨
      (n ∈ _split_field opt.name ∧
        (v ∈ _split_field opt.value ∨ (v = "" ∧ _split_field opt.value = []))) :=
  aggNamesLoop_pnValues_sub opt.deps (_split_field opt.value)
    (_split_field opt.name) st 0 n v h

theorem aggregate_pnValues_src (doc : List InOption) (n v : String) :
    v ∈ pnValues (aggregate_per_name doc) n →
    ∃ o ∈ doc, n ∈ _split_field o.name ∧
      (v ∈ _split_field o.value ∨ (v = "" ∧ _split_field o.value = [])) := by
  induction doc using List.reverseRecOn with
  | nil => intro h; simp [aggregate_per_name, pnValues] at h
  | append_singleton doc o ih =>
      intro h
      rw [aggregate_per_name, List.foldl_append, List.foldl_cons,
        List.foldl_nil] at h
      have e : List.foldl aggOptStep ⟨[], [], 0⟩ doc = aggregate_per_name doc :=
        rfl
      rw [e] at h
      rcases aggOptStep_pnValues_sub _ o n v h with h' | ⟨hn, hv⟩
      · obtain ⟨o', ho', hrest⟩ := ih h'
        exact ⟨o', by simp [ho'], hrest⟩
      · exact ⟨o, by simp, hn, hv⟩

theorem mem_foldl_updateSet {α : Type} [DecidableEq α] :
    ∀ (ls : List (List α)) (acc : List α) (v : α),
    v ∈ ls.foldl updateSet acc → v ∈ acc ∨ ∃ l ∈ ls, v ∈ l := by
  intro ls
  induction ls with
  | nil => intro acc v h; exact Or.inl h
  | cons l ls ih =>
      intro acc v h
      rw [List.foldl_cons] at h
      rcases ih (updateSet acc l) v h with h' | ⟨l', hl', hv⟩
      · rcases mem_updateSet.mp h' with h'' | h''
        · exact Or.inl h''
        · exact Or.inr ⟨l, by simp, h''⟩
      · exact Or.inr ⟨l', by simp [hl'], hv⟩

theorem mem_gmEntry_values (pn : List (String × NameInfo)) (dk : List Dep)
    (v : String) (h : v ∈ (gmEntry pn dk).values) :
    ∃ q ∈ pn, sortDeps q.2.deps = some dk ∧ v ∈ q.2.values := by
  simp only [gmEntry] at h
  rcases mem_foldl_updateSet _ [] v h with h' | ⟨l, hl, hv⟩
  · cases h'
  · obtain ⟨q, hq, rfl⟩ := List.mem_map.mp hl
    have := List.mem_filter.mp hq
    exact ⟨q, this.1, by simpa using this.2, hv⟩

theorem mem_gmEntry_names (pn : List (String × NameInfo)) (dk : List Dep)
    (n : String) :
    n ∈ (gmEntry pn dk).names ↔
      ∃ q ∈ pn, q.1 = n ∧ sortDeps q.2.deps = some dk := by
  simp only [gmEntry, List.mem_map, List.mem_filter, decide_eq_true_eq]
  constructor
  · rintro ⟨q, ⟨hq, hs⟩, rfl⟩
    exact ⟨q, hq, rfl, hs⟩
  · rintro ⟨q, hq, rfl, hs⟩
    exact ⟨q, ⟨hq, hs⟩, rfl⟩

theorem keys_nodup_entry_inj {pn : List (String × NameInfo)}
    (hnd : (pn.map Prod.fst).Nodup) :
    ∀ {p1 p2 : String × NameInfo}, p1 ∈ pn → p2 ∈ pn → p1.1 = p2.1 →
    p1 = p2 := by
  induction pn with
  | nil => intro p1 p2 h1; cases h1
  | cons q pn ih =>
      intro p1 p2 h1 h2 he
      rw [List.map_cons, List.nodup_cons] at hnd
      rcases List.mem_cons.mp h1 with rfl | h1' <;>
        rcases List.mem_cons.mp h2 with rfl | h2'
      · rfl
      · exact absurd (List.mem_map.mpr ⟨p2, h2', he.symm⟩) hnd.1
      · exact absurd (List.mem_map.mpr ⟨p1, h1', he⟩) hnd.1
      · exact ih hnd.2 h1' h2' he

theorem mem_iff_find? {pn : List (String × NameInfo)}
    (hnd : (pn.map Prod.fst).Nodup) (n : String) (info : NameInfo) :
    (n, info) ∈ pn ↔ pn.find? (fun p => p.1 = n) = some (n, info) := by
  constructor
  · intro hmem
    cases hfind : pn.find? (fun p => p.1 = n) with
    | none =>
        have hcontra := List.find?_eq_none.mp hfind _ hmem
        simp at hcontra
    | some e =>
        have he1 : e.1 = n := by
          have := List.find?_some hfind
          simpa using this
        have hemem : e ∈ pn := List.mem_of_find?_eq_some hfind
        have he : e = (n, info) :=
          keys_nodup_entry_inj hnd hemem hmem (by simp [he1])
        rw [← he]
  · intro hfind
    exact List.mem_of_find?_eq_some hfind

/-! ## Comparator theory -/

theorem char_toNat_inj {a b : Char} (h : a.toNat = b.toNat) : a = b :=
  Char.ext (UInt32.ext h)

theorem cmpChars_swap : ∀ a b : List Char, cmpChars b a = (cmpChars a b).swap := by
  intro a
  induction a with
  | nil => intro b; cases b <;> rfl
  | cons x xs ih =>
      intro b
      cases b with
      | nil => rfl
      | cons y ys =>
          simp only [cmpChars]
          rcases Nat.lt_trichotomy x.toNat y.toNat with h | h | h
          · rw [Nat.compare_eq_lt.mpr h, Nat.compare_eq_gt.mpr h]
            rfl
          · rw [Nat.compare_eq_eq.mpr h, Nat.compare_eq_eq.mpr h.symm]
            exact ih ys
          · rw [Nat.compare_eq_gt.mpr h, Nat.compare_eq_lt.mpr h]
            rfl

theorem cmpChars_eq_iff : ∀ a b : List Char, cmpChars a b = .eq ↔ a = b := by
  intro a
  induction a with
  | nil => intro b; cases b <;> simp [cmpChars]
  | cons x xs ih =>
      intro b
      cases b with
      | nil => simp [cmpChars]
      | cons y ys =>
          simp only [cmpChars]
          rcases Nat.lt_trichotomy x.toNat y.toNat with h | h | h
          · rw [Nat.compare_eq_lt.mpr h]
            simp only [List.cons.injEq]
            constructor
            · intro hc; cases hc
            · rintro ⟨rfl, -⟩; exact absurd h (by omega)
          · rw [Nat.compare_eq_eq.mpr h, ih ys]
            have hx : x = y := char_toNat_inj h
            simp [hx]
          · rw [Nat.compare_eq_gt.mpr h]
            simp only [List.cons.injEq]
            constructor
            · intro hc; cases hc
            · rintro ⟨rfl, -⟩; exact absurd h (by omega)

theorem cmpChars_lt_trans :
    ∀ {a b c : List Char}, cmpChars a b = .lt → cmpChars b c = .lt →
      cmpChars a c = .lt := by
  intro a
  induction a with
  | nil =>
      intro b c hab hbc
      cases b with
      | nil => cases hab
      | cons y ys =>
          cases c with
          | nil => cases hbc
          | cons z zs => rfl
  | cons x xs ih =>
      intro b c hab hbc
      cases b with
      | nil => cases hab
      | cons y ys =>
          cases c with
          | nil => cases hbc
          | cons z zs =>
              simp only [cmpChars] at hab hbc ⊢
              rcases Nat.lt_trichotomy x.toNat y.toNat with h1 | h1 | h1 <;>
                rcases Nat.lt_trichotomy y.toNat z.toNat with h2 | h2 | h2
              all_goals first
                | (rw [Nat.compare_eq_lt.mpr (by omega : x.toNat < z.toNat)])
                | (rw [Nat.compare_eq_gt.mpr h1] at hab; cases hab)
                | (rw [Nat.compare_eq_gt.mpr h2] at hbc; cases hbc)
                | (rw [Nat.compare_eq_eq.mpr (by omega : x.toNat = z.toNat)]
                   rw [Nat.compare_eq_eq.mpr h1] at hab
                   rw [Nat.compare_eq_eq.mpr h2] at hbc
                   exact ih hab hbc)

theorem cmpStr_swap (a b : String) : cmpStr b a = (cmpStr a b).swap :=
  cmpChars_swap a.data b.data

theorem cmpStr_eq_iff (a b : String) : cmpStr a b = .eq ↔ a = b := by
  rw [cmpStr, cmpChars_eq_iff]
  constructor
  · intro h
    cases a
    cases b
    exact congrArg String.mk h
  · rintro rfl
    rfl

theorem cmpStr_lt_trans {a b c : String} (h1 : cmpStr a b = .lt)
    (h2 : cmpStr b c = .lt) : cmpStr a c = .lt :=
  cmpChars_lt_trans h1 h2

theorem cmpAttr_swap : ∀ a b : Attr, cmpAttr b a = (cmpAttr a b).map Ordering.swap := by
  intro a b
  cases a with
  | none =>
      cases b with
      | none => rfl
      | some t => rfl
  | some s =>
      cases b with
      | none => rfl
      | some t =>
          show some (cmpStr t s) = some (cmpStr s t).swap
          rw [cmpStr_swap s t]

theorem cmpAttr_eq_iff : ∀ a b : Attr, cmpAttr a b = some .eq ↔ a = b := by
  intro a b
  cases a <;> cases b <;> simp [cmpAttr, cmpStr_eq_iff]

theorem cmpAttr_lt_trans : ∀ {a b c : Attr}, cmpAttr a b = some .lt →
    cmpAttr b c = some .lt → cmpAttr a c = some .lt := by
  intro a b c h1 h2
  cases a <;> cases b <;> cases c <;>
    simp_all [cmpAttr]
  exact cmpStr_lt_trans h1 h2

theorem cmpAttr_refl (a : Attr) : cmpAttr a a = some .eq :=
  (cmpAttr_eq_iff a a).mpr rfl

theorem cmpDep_swap (a b : Dep) : cmpDep b a = (cmpDep a b).map Ordering.swap := by
  simp only [cmpDep, cmpAttr_swap a.1 b.1, cmpAttr_swap a.2 b.2]
  cases cmpAttr a.1 b.1 with
  | none => rfl
  | some o => cases o <;> rfl

theorem cmpDep_eq_iff : ∀ a b : Dep, cmpDep a b = some .eq ↔ a = b := by
  rintro ⟨a1, a2⟩ ⟨b1, b2⟩
  simp only [cmpDep]
  cases hc : cmpAttr a1 b1 with
  | none =>
      have hne : a1 ≠ b1 := by
        rintro rfl
        rw [cmpAttr_refl] at hc
        cases hc
      simp [hne]
  | some o =>
      cases o with
      | lt =>
          have hne : a1 ≠ b1 := by
            rintro rfl
            rw [cmpAttr_refl] at hc
            cases hc
          simp [hne]
      | gt =>
          have hne : a1 ≠ b1 := by
            rintro rfl
            rw [cmpAttr_refl] at hc
            cases hc
          simp [hne]
      | eq =>
          have he : a1 = b1 := (cmpAttr_eq_iff a1 b1).mp hc
          simp [he, cmpAttr_eq_iff]

theorem cmpDep_refl (a : Dep) : cmpDep a a = some .eq :=
  (cmpDep_eq_iff a a).mpr rfl

theorem cmpDep_lt_trans : ∀ {a b c : Dep}, cmpDep a b = some .lt →
    cmpDep b c = some .lt → cmpDep a c = some .lt := by
  rintro ⟨a1, a2⟩ ⟨b1, b2⟩ ⟨c1, c2⟩ h1 h2
  simp only [cmpDep] at h1 h2 ⊢
  cases hab : cmpAttr a1 b1 with
  | none => rw [hab] at h1; cases h1
  | some o1 =>
      rw [hab] at h1
      cases hbc : cmpAttr b1 c1 with
      | none => rw [hbc] at h2; cases h2
      | some o2 =>
          rw [hbc] at h2
          cases o1 with
          | gt => cases h1
          | lt =>
              cases o2 with
              | lt => rw [cmpAttr_lt_trans hab hbc]
              | gt => cases h2
              | eq =>
                  have hb : b1 = c1 := (cmpAttr_eq_iff _ _).mp hbc
                  rw [← hb, hab]
          | eq =>
              have ha : a1 = b1 := (cmpAttr_eq_iff _ _).mp hab
              cases o2 with
              | lt => rw [ha, hbc]
              | gt => cases h2
              | eq =>
                  have hb : b1 = c1 := (cmpAttr_eq_iff _ _).mp hbc
                  rw [ha, hb, cmpAttr_refl]
                  exact cmpAttr_lt_trans h1 h2

/-! ## Generic sorting lemmas -/

theorem pyInsert_perm {α : Type} (cmp : α → α → Option Ordering) (x : α) :
    ∀ (ys zs : List α), pyInsert cmp x ys = some zs → zs.Perm (x :: ys) := by
  intro ys
  induction ys with
  | nil =>
      intro zs h
      simp only [pyInsert, Option.some.injEq] at h
      subst h
      exact List.Perm.refl _
  | cons y ys ih =>
      intro zs h
      simp only [pyInsert] at h
      cases hc : cmp x y with
      | none => rw [hc] at h; cases h
      | some o =>
          rw [hc] at h
          cases o with
          | lt =>
              injection h with h
              subst h
              exact List.Perm.refl _
          | eq =>
              cases hi : pyInsert cmp x ys with
              | none => rw [hi] at h; cases h
              | some zs' =>
                  rw [hi] at h
                  injection h with h
                  subst h
                  exact ((ih zs' hi).cons y).trans (List.Perm.swap x y ys)
          | gt =>
              cases hi : pyInsert cmp x ys with
              | none => rw [hi] at h; cases h
              | some zs' =>
                  rw [hi] at h
                  injection h with h
                  subst h
                  exact ((ih zs' hi).cons y).trans (List.Perm.swap x y ys)

theorem pySortAux_perm {α : Type} (cmp : α → α → Option Ordering) :
    ∀ (l acc s : List α),
    List.foldlM (fun acc x => pyInsert cmp x acc) acc l = some s →
    s.Perm (acc ++ l) := by
  intro l
  induction l with
  | nil =>
      intro acc s h
      injection h with h
      subst h
      simp
  | cons x l ih =>
      intro acc s h
      simp only [List.foldlM_cons] at h
      cases hi : pyInsert cmp x acc with
      | none => rw [hi] at h; cases h
      | some mid =>
          rw [hi] at h
          have hs : s.Perm (mid ++ l) := ih mid s h
          have hmid : (mid ++ l).Perm ((x :: acc) ++ l) :=
            (pyInsert_perm cmp x acc mid hi).append_right l
          have hmove : ((x :: acc) ++ l).Perm (acc ++ x :: l) :=
            List.perm_middle.symm
          exact (hs.trans hmid).trans hmove

theorem pySort_perm {α : Type} (cmp : α → α → Option Ordering)
    (l s : List α) (h : pySort cmp l = some s) : s.Perm l := by
  have := pySortAux_perm cmp l [] s h
  simpa using this

theorem pyInsert_isSome {α : Type} (cmp : α → α → Option Ordering) (x : α) :
    ∀ (ys : List α), (∀ y ∈ ys, (cmp x y).isSome) →
    (pyInsert cmp x ys).isSome := by
  intro ys
  induction ys with
  | nil => intro _; simp [pyInsert]
  | cons y ys ih =>
      intro h
      simp only [pyInsert]
      cases hc : cmp x y with
      | none =>
          have := h y (by simp)
          rw [hc] at this
          cases this
      | some o =>
          cases o with
          | lt => simp
          | eq =>
              have := ih (fun z hz => h z (by simp [hz]))
              cases hi : pyInsert cmp x ys with
              | none => rw [hi] at this; cases this
              | some zs => simp [hi]
          | gt =>
              have := ih (fun z hz => h z (by simp [hz]))
              cases hi : pyInsert cmp x ys with
              | none => rw [hi] at this; cases this
              | some zs => simp [hi]

theorem pySortAux_isSome {α : Type} (cmp : α → α → Option Ordering) :
    ∀ (l acc : List α),
    (∀ x ∈ l, ∀ y ∈ acc, (cmp x y).isSome) →
    (∀ x ∈ l, ∀ y ∈ l, (cmp x y).isSome) →
    (List.foldlM (fun acc x => pyInsert cmp x acc) acc l).isSome := by
  intro l
  induction l with
  | nil => intro acc _ _; simp
  | cons x l ih =>
      intro acc hcross hself
      simp only [List.foldlM_cons]
      have h1 : (pyInsert cmp x acc).isSome :=
        pyInsert_isSome cmp x acc (fun y hy => hcross x (by simp) y hy)
      cases hi : pyInsert cmp x acc with
      | none => rw [hi] at h1; cases h1
      | some mid =>
          have hmid := pyInsert_perm cmp x acc mid hi
          have := ih mid
            (fun z hz y hy => by
              rcases List.mem_cons.mp (hmid.mem_iff.mp hy) with rfl | hacc
              · exact hself z (by simp [hz]) y (by simp)
              · exact hcross z (by simp [hz]) y hacc)
            (fun z hz y hy => hself z (by simp [hz]) y (by simp [hy]))
          simpa [hi] using this

theorem pySort_isSome {α : Type} (cmp : α → α → Option Ordering)
    (l : List α) (h : ∀ x ∈ l, ∀ y ∈ l, (cmp x y).isSome) :
    (pySort cmp l).isSome :=
  pySortAux_isSome cmp l [] (by simp) h

theorem pyInsert_pairwise {α : Type} (cmp : α → α → Option Ordering)
    (hsw : ∀ a b : α, cmp b a = (cmp a b).map Ordering.swap)
    (htr : ∀ {a b c : α}, cmp a b = some .lt → cmp b c = some .lt →
      cmp a c = some .lt)
    (heq : ∀ {a b : α}, cmp a b = some .eq → a = b) (x : α) :
    ∀ (ys zs : List α),
    ys.Pairwise (fun a b => cmp a b = some .lt) → (∀ y ∈ ys, x ≠ y) →
    pyInsert cmp x ys = some zs →
    zs.Pairwise (fun a b => cmp a b = some .lt) := by
  intro ys
  induction ys with
  | nil =>
      intro zs _ _ h
      simp only [pyInsert, Option.some.injEq] at h
      subst h
      simp
  | cons y ys ih =>
      intro zs hp hx h
      obtain ⟨hy, hys⟩ := List.pairwise_cons.mp hp
      simp only [pyInsert] at h
      cases hc : cmp x y with
      | none => rw [hc] at h; cases h
      | some o =>
          rw [hc] at h
          cases o with
          | lt =>
              injection h with h
              subst h
              refine List.pairwise_cons.mpr ⟨?_, hp⟩
              intro z hz
              rcases List.mem_cons.mp hz with rfl | hz
              · exact hc
              · exact htr hc (hy z hz)
          | eq => exact absurd (heq hc) (hx y (by simp))
          | gt =>
              cases hi : pyInsert cmp x ys with
              | none => rw [hi] at h; cases h
              | some zs' =>
                  rw [hi] at h
                  injection h with h
                  subst h
                  have hyx : cmp y x = some .lt := by
                    rw [hsw x y, hc]
                    rfl
                  refine List.pairwise_cons.mpr ⟨?_, ?_⟩
                  · intro z hz
                    rcases List.mem_cons.mp
                        ((pyInsert_perm cmp x ys zs' hi).mem_iff.mp hz)
                      with rfl | hz'
                    · exact hyx
                    · exact hy z hz'
                  · exact ih zs' hys (fun z hz => hx z (by simp [hz])) hi

theorem pySortAux_pairwise {α : Type} (cmp : α → α → Option Ordering)
    (hsw : ∀ a b : α, cmp b a = (cmp a b).map Ordering.swap)
    (htr : ∀ {a b c : α}, cmp a b = some .lt → cmp b c = some .lt →
      cmp a c = some .lt)
    (heq : ∀ {a b : α}, cmp a b = some .eq → a = b) :
    ∀ (l acc s : List α),
    acc.Pairwise (fun a b => cmp a b = some .lt) →
    (∀ x ∈ l, x ∉ acc) → l.Nodup →
    List.foldlM (fun acc x => pyInsert cmp x acc) acc l = some s →
    s.Pairwise (fun a b => cmp a b = some .lt) := by
  intro l
  induction l with
  | nil =>
      intro acc s hacc _ _ h
      injection h with h
      subst h
      exact hacc
  | cons x l ih =>
      intro acc s hacc hdisj hnd h
      simp only [List.foldlM_cons] at h
      cases hi : pyInsert cmp x acc with
      | none => rw [hi] at h; cases h
      | some mid =>
          rw [hi] at h
          have hmidp : mid.Pairwise (fun a b => cmp a b = some .lt) :=
            pyInsert_pairwise cmp hsw htr heq x acc mid hacc
              (fun y hy hxy => hdisj x (by simp) (hxy ▸ hy)) hi
          have hmem := pyInsert_perm cmp x acc mid hi
          exact ih mid s hmidp
            (fun z hz hzm => by
              rcases List.mem_cons.mp (hmem.mem_iff.mp hzm) with rfl | hzacc
              · exact (List.nodup_cons.mp hnd).1 hz
              · exact hdisj z (by simp [hz]) hzacc)
            (List.nodup_cons.mp hnd).2 h

theorem pySort_pairwise {α : Type} (cmp : α → α → Option Ordering)
    (hsw : ∀ a b : α, cmp b a = (cmp a b).map Ordering.swap)
    (htr : ∀ {a b c : α}, cmp a b = some .lt → cmp b c = some .lt →
      cmp a c = some .lt)
    (heq : ∀ {a b : α}, cmp a b = some .eq → a = b)
    (l s : List α) (hnd : l.Nodup) (h : pySort cmp l = some s) :
    s.Pairwise (fun a b => cmp a b = some .lt) :=
  pySortAux_pairwise cmp hsw htr heq l [] s (by simp) (by simp) hnd h

theorem sorted_eq_of_perm {α : Type} (cmp : α → α → Option Ordering)
    (hsw : ∀ a b : α, cmp b a = (cmp a b).map Ordering.swap)
    {s1 s2 : List α} (hperm : s1.Perm s2)
    (h1 : s1.Pairwise (fun a b => cmp a b = some .lt))
    (h2 : s2.Pairwise (fun a b => cmp a b = some .lt)) : s1 = s2 := by
  haveI : IsAntisymm α (fun a b => cmp a b = some .lt) := by
    constructor
    intro a b hab hba
    rw [hsw a b, hab] at hba
    cases hba
  exact List.eq_of_perm_of_sorted hperm h1 h2

theorem pyInsert_at_end {α : Type} (cmp : α → α → Option Ordering)
    (hsw : ∀ a b : α, cmp b a = (cmp a b).map Ordering.swap) (x : α) :
    ∀ (ys : List α), (∀ y ∈ ys, cmp y x = some .lt) →
    pyInsert cmp x ys = some (ys ++ [x]) := by
  intro ys
  induction ys with
  | nil => intro _; rfl
  | cons y ys ih =>
      intro h
      have hxy : cmp x y = some .gt := by
        have h2 := hsw y x
        rw [h y (by simp)] at h2
        exact h2
      simp only [pyInsert, hxy]
      rw [ih (fun z hz => h z (by simp [hz]))]
      rfl

theorem pySortAux_of_sorted {α : Type} (cmp : α → α → Option Ordering)
    (hsw : ∀ a b : α, cmp b a = (cmp a b).map Ordering.swap) :
    ∀ (l acc : List α),
    (∀ a ∈ acc, ∀ b ∈ l, cmp a b = some .lt) →
    l.Pairwise (fun a b => cmp a b = some .lt) →
    List.foldlM (fun acc x => pyInsert cmp x acc) acc l = some (acc ++ l) := by
  intro l
  induction l with
  | nil => intro acc _ _; simp
  | cons x l ih =>
      intro acc hcross hp
      simp only [List.foldlM_cons]
      rw [pyInsert_at_end cmp hsw x acc (fun y hy => hcross y hy x (by simp))]
      have := ih (acc ++ [x])
        (fun a ha b hb => by
          rcases List.mem_append.mp ha with ha | ha
          · exact hcross a ha b (by simp [hb])
          · rcases List.mem_singleton.mp ha with rfl
            exact (List.pairwise_cons.mp hp).1 b hb)
        (List.pairwise_cons.mp hp).2
      simpa using this

theorem pySort_of_sorted {α : Type} (cmp : α → α → Option Ordering)
    (hsw : ∀ a b : α, cmp b a = (cmp a b).map Ordering.swap)
    (l : List α) (hp : l.Pairwise (fun a b => cmp a b = some .lt)) :
    pySort cmp l = some l :=
  pySortAux_of_sorted cmp hsw l [] (by simp) hp

/-! ## Sorting dependents and values -/

theorem sortDeps_perm {l s : List Dep} (h : sortDeps l = some s) : s.Perm l :=
  pySort_perm cmpDep l s h

theorem sortDeps_toFinset {l s : List Dep} (h : sortDeps l = some s) :
    s.toFinset = l.toFinset :=
  List.toFinset_eq_of_perm _ _ (sortDeps_perm h)

theorem sortDeps_pairwise {l s : List Dep} (hnd : l.Nodup)
    (h : sortDeps l = some s) :
    s.Pairwise (fun a b => cmpDep a b = some .lt) :=
  pySort_pairwise cmpDep cmpDep_swap (fun h1 h2 => cmpDep_lt_trans h1 h2)
    (fun he => (cmpDep_eq_iff _ _).mp he) l s hnd h

theorem sortDeps_of_sorted {l : List Dep}
    (hp : l.Pairwise (fun a b => cmpDep a b = some .lt)) :
    sortDeps l = some l :=
  pySort_of_sorted cmpDep cmpDep_swap l hp

theorem sortDeps_isSome {l : List Dep}
    (h : ∀ a ∈ l, ∀ b ∈ l, (cmpDep a b).isSome) : (sortDeps l).isSome :=
  pySort_isSome cmpDep l h

theorem sortDeps_canonical {l1 l2 s1 s2 : List Dep} (h1nd : l1.Nodup)
    (h2nd : l2.Nodup) (hset : l1.toFinset = l2.toFinset)
    (h1 : sortDeps l1 = some s1) (h2 : sortDeps l2 = some s2) : s1 = s2 := by
  have hp : l1.Perm l2 := List.perm_of_nodup_nodup_toFinset_eq h1nd h2nd hset
  have hperm : s1.Perm s2 :=
    (sortDeps_perm h1).trans (hp.trans (sortDeps_perm h2).symm)
  exact sorted_eq_of_perm cmpDep cmpDep_swap hperm
    (sortDeps_pairwise h1nd h1) (sortDeps_pairwise h2nd h2)

theorem cmpValue_isSome_iff (a b : String) :
    (cmpValue a b).isSome ↔ pyIsDigit a = pyIsDigit b := by
  simp only [cmpValue, valueKey]
  by_cases ha : pyIsDigit a <;> by_cases hb : pyIsDigit b <;>
    simp [ha, hb, cmpKey]

theorem sortValues_isSome {l : List String}
    (h : ∀ a ∈ l, ∀ b ∈ l, pyIsDigit a = pyIsDigit b) :
    (sortValues l).isSome :=
  pySort_isSome cmpValue l
    (fun a ha b hb => (cmpValue_isSome_iff a b).mpr (h a ha b hb))

theorem pyInsert_head_isSome {α : Type} (cmp : α → α → Option Ordering)
    {x y : α} {ys zs : List α} (h : pyInsert cmp x (y :: ys) = some zs) :
    (cmp x y).isSome := by
  simp only [pyInsert] at h
  cases hc : cmp x y with
  | none => rw [hc] at h; cases h
  | some o => simp

theorem sortValuesAux_kind :
    ∀ (l acc : List String) (s : List String),
    (∀ p ∈ acc, ∀ q ∈ acc, pyIsDigit p = pyIsDigit q) →
    List.foldlM (fun acc x => pyInsert cmpValue x acc) acc l = some s →
    ∀ p ∈ acc ++ l, ∀ q ∈ acc ++ l, pyIsDigit p = pyIsDigit q := by
  intro l
  induction l with
  | nil =>
      intro acc s hacc _ p hp q hq
      simp only [List.append_nil] at hp hq
      exact hacc p hp q hq
  | cons x l ih =>
      intro acc s hacc h
      simp only [List.foldlM_cons] at h
      cases hi : pyInsert cmpValue x acc with
      | none => rw [hi] at h; cases h
      | some mid =>
          rw [hi] at h
          have hmid := pyInsert_perm cmpValue x acc mid hi
          have hmidk : ∀ p ∈ mid, ∀ q ∈ mid, pyIsDigit p = pyIsDigit q := by
            have hxacc : ∀ p ∈ acc, pyIsDigit x = pyIsDigit p := by
              cases acc with
              | nil => intro p hp; cases hp
              | cons a rest =>
                  intro p hp
                  have hxa : pyIsDigit x = pyIsDigit a :=
                    (cmpValue_isSome_iff x a).mp (pyInsert_head_isSome cmpValue hi)
                  rcases List.mem_cons.mp hp with rfl | hrest
                  · exact hxa
                  · exact hxa.trans (hacc a (by simp) p (by simp [hrest]))
            intro p hp q hq
            rcases List.mem_cons.mp (hmid.mem_iff.mp hp) with rfl | hp' <;>
              rcases List.mem_cons.mp (hmid.mem_iff.mp hq) with rfl | hq'
            · rfl
            · exact hxacc q hq'
            · exact (hxacc p hp').symm
            · exact hacc p hp' q hq'
          have hall := ih mid s hmidk h
          intro p hp q hq
          have hmem : ∀ r : String, r ∈ acc ++ x :: l → r ∈ mid ++ l := by
            intro r hr
            rcases List.mem_append.mp hr with hr | hr
            · exact List.mem_append.mpr (Or.inl (hmid.mem_iff.mpr (by simp [hr])))
            · rcases List.mem_cons.mp hr with rfl | hr'
              · exact List.mem_append.mpr (Or.inl (hmid.mem_iff.mpr (by simp)))
              · exact List.mem_append.mpr (Or.inr hr')
          exact hall p (hmem p hp) q (hmem q hq)

theorem sortValues_kind {l s : List String} (h : sortValues l = some s) :
    ∀ p ∈ l, ∀ q ∈ l, pyIsDigit p = pyIsDigit q := by
  have := sortValuesAux_kind l [] s (by simp) h
  simpa using this

/-! ## Structure of the groups map -/

theorem gmKeys_map_fst (pn : List (String × NameInfo)) :
    ((gmKeys pn).map (fun dk => (dk, gmEntry pn dk))).map Prod.fst =
      gmKeys pn := by
  rw [List.map_map]
  have h : (Prod.fst ∘ fun dk => (dk, gmEntry pn dk)) = id := by
    funext dk
    rfl
  rw [h, List.map_id]

theorem mem_gmKeys (pn : List (String × NameInfo)) (dk : List Dep) :
    dk ∈ gmKeys pn ↔ ∃ q ∈ pn, sortDeps q.2.deps = some dk := by
  rw [gmKeys, mem_dedupKeepFirst, List.mem_filterMap]

theorem gmKeys_snoc (pn : List (String × NameInfo)) (q : String × NameInfo)
    (dk : List Dep) (hq : sortDeps q.2.deps = some dk) :
    gmKeys (pn ++ [q]) = addSet (gmKeys pn) dk := by
  have h1 : List.filterMap (fun q : String × NameInfo => sortDeps q.2.deps) [q] =
      [dk] := by
    simp [hq]
  rw [gmKeys, List.filterMap_append, h1, dedupKeepFirst_append]
  rfl

theorem gmEntry_snoc_ne (pn : List (String × NameInfo)) (q : String × NameInfo)
    (dk k : List Dep) (hq : sortDeps q.2.deps = some dk) (hne : k ≠ dk) :
    gmEntry (pn ++ [q]) k = gmEntry pn k := by
  have hfil : (pn ++ [q]).filter (fun p => sortDeps p.2.deps = some k) =
      pn.filter (fun p => sortDeps p.2.deps = some k) := by
    rw [List.filter_append]
    have : [q].filter (fun p => sortDeps p.2.deps = some k) = [] := by
      simp [hq, Ne.symm hne]
    rw [this, List.append_nil]
  rw [gmEntry, gmEntry, hfil]

theorem gmEntry_snoc_self (pn : List (String × NameInfo)) (q : String × NameInfo)
    (dk : List Dep) (hq : sortDeps q.2.deps = some dk) :
    gmEntry (pn ++ [q]) dk =
      ⟨(gmEntry pn dk).names ++ [q.1],
       updateSet (gmEntry pn dk).values q.2.values, dk⟩ := by
  have hfil : (pn ++ [q]).filter (fun p => sortDeps p.2.deps = some dk) =
      pn.filter (fun p => sortDeps p.2.deps = some dk) ++ [q] := by
    rw [List.filter_append]
    have : [q].filter (fun p => sortDeps p.2.deps = some dk) = [q] := by
      simp [hq]
    rw [this]
  unfold gmEntry
  rw [hfil]
  simp only [List.map_append, List.foldl_append, List.map_cons, List.map_nil,
    List.foldl_cons, List.foldl_nil]

theorem gmEntry_names_sub (pn : List (String × NameInfo)) (dk : List Dep) :
    ∀ n ∈ (gmEntry pn dk).names, n ∈ pn.map Prod.fst := by
  intro n hn
  simp only [gmEntry] at hn
  obtain ⟨p, hp, rfl⟩ := List.mem_map.mp hn
  exact List.mem_map.mpr ⟨p, List.mem_of_mem_filter hp, rfl⟩

theorem gmAdd_snoc (pn : List (String × NameInfo)) (q : String × NameInfo)
    (dk : List Dep) (hq : sortDeps q.2.deps = some dk)
    (hq1 : q.1 ∉ pn.map Prod.fst) :
    gmAdd ((gmKeys pn).map (fun k => (k, gmEntry pn k))) dk q.1 q.2 =
      (gmKeys (pn ++ [q])).map (fun k => (k, gmEntry (pn ++ [q]) k)) := by
  rw [gmKeys_snoc pn q dk hq, gmAdd]
  by_cases hmem : dk ∈ gmKeys pn
  · have hany : ((gmKeys pn).map (fun k => (k, gmEntry pn k))).any
        (fun p => p.1 = dk) = true := by
      rw [any_key_iff, gmKeys_map_fst]
      exact hmem
    rw [if_pos hany, addSet_of_mem hmem, List.map_map]
    apply List.map_congr_left
    intro k hk
    by_cases hkd : k = dk
    · subst hkd
      simp only [Function.comp_apply, if_pos rfl]
      rw [gmEntry_snoc_self pn q k hq]
      have hnames : q.1 ∉ (gmEntry pn k).names := fun hmm =>
        hq1 (gmEntry_names_sub pn k q.1 hmm)
      rw [addSet_of_not_mem hnames]
      rfl
    · simp only [Function.comp_apply, if_neg hkd]
      rw [gmEntry_snoc_ne pn q dk k hq hkd]
  · have hany : ((gmKeys pn).map (fun k => (k, gmEntry pn k))).any
        (fun p => p.1 = dk) = false := by
      rw [← Bool.not_eq_true, any_key_iff, gmKeys_map_fst]
      exact hmem
    rw [hany, if_neg (by simp), addSet_of_not_mem hmem, List.map_append,
        List.map_append, List.map_map]
    congr 1
    · apply List.map_congr_left
      intro k hk
      have hkd : k ≠ dk := fun e => hmem (e ▸ hk)
      simp only [Function.comp_apply, if_neg hkd]
      rw [gmEntry_snoc_ne pn q dk k hq hkd]
    · have hfil : pn.filter (fun p => sortDeps p.2.deps = some dk) = [] := by
        rw [List.filter_eq_nil_iff]
        intro p hp hcon
        exact hmem ((mem_gmKeys pn dk).mpr
          ⟨p, hp, by simpa using hcon⟩)
      have hentry : gmEntry pn dk = ⟨[], [], dk⟩ := by
        rw [gmEntry, hfil]
        rfl
      simp only [List.map_cons, List.map_nil, if_pos rfl]
      rw [gmEntry_snoc_self pn q dk hq, hentry]
      rfl

theorem buildGroupsMap_eq :
    ∀ (pn : List (String × NameInfo)), (pn.map Prod.fst).Nodup →
    (∀ q ∈ pn, (sortDeps q.2.deps).isSome) →
    buildGroupsMap pn =
      some ((gmKeys pn).map (fun dk => (dk, gmEntry pn dk))) := by
  intro pn
  induction pn using List.reverseRecOn with
  | nil => intro _ _; rfl
  | append_singleton pn q ih =>
      intro hnd h
      rw [List.map_append] at hnd
      have hnd' : (pn.map Prod.fst).Nodup := (List.nodup_append.mp hnd).1
      have hq1 : q.1 ∉ pn.map Prod.fst := by
        intro hmm
        exact (List.nodup_append.mp hnd).2.2 hmm (by simp)
      obtain ⟨dk, hdk⟩ := Option.isSome_iff_exists.mp (h q (by simp))
      have hrest : ∀ p ∈ pn, (sortDeps p.2.deps).isSome :=
        fun p hp => h p (by simp [hp])
      have ih' := ih hnd' hrest
      rw [buildGroupsMap] at ih' ⊢
      rw [List.foldlM_append, ih']
      simp only [Option.bind_eq_bind, Option.some_bind, List.foldlM_cons,
        List.foldlM_nil, hdk, Option.pure_def, Option.bind_some]
      rw [gmAdd_snoc pn q dk hdk hq1]

/-! ## Option mapM, group sort, name sort, minimum, first-index lookup -/

theorem mapM_option_spec {α β : Type} (f : α → Option β) :
    ∀ (l : List α) (l' : List β), l.mapM f = some l' →
    List.Forall₂ (fun a b => f a = some b) l l' := by
  intro l
  induction l with
  | nil =>
      intro l' h
      rw [List.mapM_nil] at h
      simp only [Option.pure_def, Option.some.injEq] at h
      subst h
      exact List.Forall₂.nil
  | cons x l ih =>
      intro l' h
      rw [List.mapM_cons] at h
      cases hfx : f x with
      | none =>
          rw [hfx] at h
          simp only [Option.bind_eq_bind, Option.none_bind] at h
          cases h
      | some b =>
          rw [hfx] at h
          simp only [Option.bind_eq_bind, Option.some_bind] at h
          cases hml : l.mapM f with
          | none =>
              rw [hml] at h
              simp only [Option.bind_eq_bind, Option.none_bind] at h
              cases h
          | some bs =>
              rw [hml] at h
              simp only [Option.bind_eq_bind, Option.some_bind,
                Option.pure_def, Option.some.injEq] at h
              subst h
              exact List.Forall₂.cons hfx (ih bs hml)

theorem mapM_option_of_forall2 {α β : Type} (f : α → Option β) :
    ∀ {l : List α} {l' : List β},
    List.Forall₂ (fun a b => f a = some b) l l' → l.mapM f = some l' := by
  intro l l' h
  induction h with
  | nil => rfl
  | @cons a b la lb hfb _ ih =>
      rw [List.mapM_cons, hfb, ih]
      rfl

theorem insertGroup_perm (x : Group) :
    ∀ l : List Group, (insertGroup x l).Perm (x :: l) := by
  intro l
  induction l with
  | nil => exact List.Perm.refl _
  | cons y ys ih =>
      simp only [insertGroup]
      split
      · exact List.Perm.refl _
      · exact (ih.cons y).trans (List.Perm.swap x y ys)

theorem sortGroupsAux_perm :
    ∀ (l acc : List Group),
    (l.foldl (fun acc x => insertGroup x acc) acc).Perm (acc ++ l) := by
  intro l
  induction l with
  | nil => intro acc; simp
  | cons x l ih =>
      intro acc
      rw [List.foldl_cons]
      exact (ih (insertGroup x acc)).trans
        (((insertGroup_perm x acc).append_right l).trans List.perm_middle.symm)

theorem sortGroups_perm (l : List Group) : (sortGroups l).Perm l := by
  have := sortGroupsAux_perm l []
  simpa [sortGroups] using this

theorem insertGroup_pairwise (x : Group) :
    ∀ l : List Group,
    l.Pairwise (fun a b => a.order_key ≤ b.order_key) →
    (insertGroup x l).Pairwise (fun a b => a.order_key ≤ b.order_key) := by
  intro l
  induction l with
  | nil => intro _; simp [insertGroup]
  | cons y ys ih =>
      intro hp
      obtain ⟨hy, hys⟩ := List.pairwise_cons.mp hp
      simp only [insertGroup]
      split
      · rename_i hlt
        refine List.pairwise_cons.mpr ⟨?_, hp⟩
        intro z hz
        rcases List.mem_cons.mp hz with rfl | hz'
        · omega
        · have := hy z hz'
          omega
      · rename_i hge
        refine List.pairwise_cons.mpr ⟨?_, ih hys⟩
        intro z hz
        rcases List.mem_cons.mp ((insertGroup_perm x ys).mem_iff.mp hz)
          with rfl | hz'
        · omega
        · exact hy z hz'

theorem sortGroupsAux_sorted :
    ∀ (l acc : List Group),
    acc.Pairwise (fun a b => a.order_key ≤ b.order_key) →
    (l.foldl (fun acc x => insertGroup x acc) acc).Pairwise
      (fun a b => a.order_key ≤ b.order_key) := by
  intro l
  induction l with
  | nil => intro acc h; exact h
  | cons x l ih =>
      intro acc h
      rw [List.foldl_cons]
      exact ih (insertGroup x acc) (insertGroup_pairwise x acc h)

theorem sortGroups_sorted (l : List Group) :
    (sortGroups l).Pairwise (fun a b => a.order_key ≤ b.order_key) :=
  sortGroupsAux_sorted l [] (by simp)

theorem insertGroup_at_end (x : Group) :
    ∀ l : List Group, (∀ y ∈ l, ¬ x.order_key < y.order_key) →
    insertGroup x l = l ++ [x] := by
  intro l
  induction l with
  | nil => intro _; rfl
  | cons y ys ih =>
      intro h
      simp only [insertGroup]
      rw [if_neg (h y (by simp)), ih (fun z hz => h z (by simp [hz]))]
      rfl

theorem sortGroupsAux_of_sorted :
    ∀ (l acc : List Group),
    (∀ a ∈ acc, ∀ b ∈ l, a.order_key < b.order_key) →
    l.Pairwise (fun a b => a.order_key < b.order_key) →
    l.foldl (fun acc x => insertGroup x acc) acc = acc ++ l := by
  intro l
  induction l with
  | nil => intro acc _ _; simp
  | cons x l ih =>
      intro acc hcross hp
      rw [List.foldl_cons,
        insertGroup_at_end x acc (fun y hy => by
          have := hcross y hy x (by simp)
          omega)]
      have := ih (acc ++ [x])
        (fun a ha b hb => by
          rcases List.mem_append.mp ha with ha | ha
          · exact hcross a ha b (by simp [hb])
          · rcases List.mem_singleton.mp ha with rfl
            exact (List.pairwise_cons.mp hp).1 b hb)
        (List.pairwise_cons.mp hp).2
      simpa using this

theorem sortGroups_of_sorted {l : List Group}
    (hp : l.Pairwise (fun a b => a.order_key < b.order_key)) :
    sortGroups l = l :=
  sortGroupsAux_of_sorted l [] (by simp) hp

theorem insertByFi_perm (fi : List (String × Nat)) (x : String) :
    ∀ l : List String, (insertByFi fi x l).Perm (x :: l) := by
  intro l
  induction l with
  | nil => exact List.Perm.refl _
  | cons y ys ih =>
      simp only [insertByFi]
      split
      · exact List.Perm.refl _
      · exact (ih.cons y).trans (List.Perm.swap x y ys)

theorem sortNamesByFiAux_perm (fi : List (String × Nat)) :
    ∀ (l acc : List String),
    (l.foldl (fun acc x => insertByFi fi x acc) acc).Perm (acc ++ l) := by
  intro l
  induction l with
  | nil => intro acc; simp
  | cons x l ih =>
      intro acc
      rw [List.foldl_cons]
      exact (ih (insertByFi fi x acc)).trans
        (((insertByFi_perm fi x acc).append_right l).trans List.perm_middle.symm)

theorem sortNamesByFi_perm (fi : List (String × Nat)) (l : List String) :
    (sortNamesByFi fi l).Perm l := by
  have := sortNamesByFiAux_perm fi l []
  simpa [sortNamesByFi] using this

theorem insertByFi_at_end (fi : List (String × Nat)) (x : String) :
    ∀ l : List String, (∀ y ∈ l, ¬ fiGet fi x < fiGet fi y) →
    insertByFi fi x l = l ++ [x] := by
  intro l
  induction l with
  | nil => intro _; rfl
  | cons y ys ih =>
      intro h
      simp only [insertByFi]
      rw [if_neg (h y (by simp)), ih (fun z hz => h z (by simp [hz]))]
      rfl

theorem sortNamesByFiAux_of_sorted (fi : List (String × Nat)) :
    ∀ (l acc : List String),
    (∀ a ∈ acc, ∀ b ∈ l, fiGet fi a < fiGet fi b) →
    l.Pairwise (fun a b => fiGet fi a < fiGet fi b) →
    l.foldl (fun acc x => insertByFi fi x acc) acc = acc ++ l := by
  intro l
  induction l with
  | nil => intro acc _ _; simp
  | cons x l ih =>
      intro acc hcross hp
      rw [List.foldl_cons,
        insertByFi_at_end fi x acc (fun y hy => by
          have := hcross y hy x (by simp)
          omega)]
      have := ih (acc ++ [x])
        (fun a ha b hb => by
          rcases List.mem_append.mp ha with ha | ha
          · exact hcross a ha b (by simp [hb])
          · rcases List.mem_singleton.mp ha with rfl
            exact (List.pairwise_cons.mp hp).1 b hb)
        (List.pairwise_cons.mp hp).2
      simpa using this

theorem sortNamesByFi_of_sorted {fi : List (String × Nat)} {l : List String}
    (hp : l.Pairwise (fun a b => fiGet fi a < fiGet fi b)) :
    sortNamesByFi fi l = l :=
  sortNamesByFiAux_of_sorted fi l [] (by simp) hp

theorem foldl_min_le_init (fi : List (String × Nat)) :
    ∀ (ns : List String) (a : Nat),
    ns.foldl (fun m x => Nat.min m (fiGet fi x)) a ≤ a := by
  intro ns
  induction ns with
  | nil => intro a; exact Nat.le_refl a
  | cons x ns ih =>
      intro a
      rw [List.foldl_cons]
      exact Nat.le_trans (ih _) (Nat.min_le_left _ _)

theorem foldl_min_le_mem (fi : List (String × Nat)) :
    ∀ (ns : List String) (a : Nat) (x : String), x ∈ ns →
    ns.foldl (fun m y => Nat.min m (fiGet fi y)) a ≤ fiGet fi x := by
  intro ns
  induction ns with
  | nil => intro a x hx; cases hx
  | cons y ns ih =>
      intro a x hx
      rw [List.foldl_cons]
      rcases List.mem_cons.mp hx with rfl | hx'
      · exact Nat.le_trans (foldl_min_le_init fi ns _) (Nat.min_le_right _ _)
      · exact ih _ x hx'

theorem foldl_min_attained (fi : List (String × Nat)) :
    ∀ (ns : List String) (a : Nat),
    ns.foldl (fun m y => Nat.min m (fiGet fi y)) a = a ∨
    ∃ x ∈ ns, ns.foldl (fun m y => Nat.min m (fiGet fi y)) a = fiGet fi x := by
  intro ns
  induction ns with
  | nil => intro a; exact Or.inl rfl
  | cons y ns ih =>
      intro a
      rw [List.foldl_cons]
      rcases ih (Nat.min a (fiGet fi y)) with h | ⟨x, hx, h⟩
      · rcases Nat.le_total a (fiGet fi y) with hle | hle
        · left
          rw [h]
          exact Nat.min_eq_left hle
        · right
          exact ⟨y, by simp, by rw [h]; exact Nat.min_eq_right hle⟩
      · right
        exact ⟨x, by simp [hx], h⟩

theorem minFi_le (fi : List (String × Nat)) (ns : List String) (n : String)
    (hn : n ∈ ns) : minFi fi ns ≤ fiGet fi n := by
  cases ns with
  | nil => cases hn
  | cons m ms =>
      simp only [minFi]
      rcases List.mem_cons.mp hn with rfl | hn'
      · exact foldl_min_le_init fi ms _
      · exact foldl_min_le_mem fi ms _ n hn'

theorem minFi_attained (fi : List (String × Nat)) (ns : List String)
    (h : ns ≠ []) : ∃ n ∈ ns, minFi fi ns = fiGet fi n := by
  cases ns with
  | nil => exact absurd rfl h
  | cons m ms =>
      simp only [minFi]
      rcases foldl_min_attained fi ms (fiGet fi m) with h1 | ⟨x, hx, h1⟩
      · exact ⟨m, by simp, h1⟩
      · exact ⟨x, by simp [hx], h1⟩

theorem minFi_head_of_sorted (fi : List (String × Nat)) (m : String)
    (ms : List String)
    (hp : (m :: ms).Pairwise (fun a b => fiGet fi a < fiGet fi b)) :
    minFi fi (m :: ms) = fiGet fi m := by
  obtain ⟨n, hn, he⟩ := minFi_attained fi (m :: ms) (by simp)
  rcases List.mem_cons.mp hn with rfl | hn'
  · exact he
  · exfalso
    have h1 := (List.pairwise_cons.mp hp).1 n hn'
    have h2 := minFi_le fi (m :: ms) m (by simp)
    omega

theorem fiGet_enumFrom :
    ∀ (L : List String) (k : Nat) (n : String),
    fiGet ((List.enumFrom k L).map (fun p => (p.2, p.1))) n =
      if n ∈ L then k + L.indexOf n else 10 ^ 9 := by
  intro L
  induction L with
  | nil => intro k n; simp [fiGet]
  | cons a L ih =>
      intro k n
      rw [List.enumFrom_cons, List.map_cons]
      by_cases han : a = n
      · subst han
        simp [fiGet, List.find?_cons, List.indexOf_cons_self]
      · have h1 : fiGet ((a, k) :: (List.enumFrom (k + 1) L).map
            (fun p => (p.2, p.1))) n =
            fiGet ((List.enumFrom (k + 1) L).map (fun p => (p.2, p.1))) n := by
          simp [fiGet, List.find?_cons, han]
        rw [h1, ih (k + 1) n]
        have h2 : (n ∈ a :: L) = (n ∈ L) := by
          simp [List.mem_cons, Ne.symm han]
        by_cases hmem : n ∈ L
        · rw [if_pos hmem, if_pos (by simp [hmem]),
            List.indexOf_cons_ne L han]
          omega
        · rw [if_neg hmem, if_neg (by simp [hmem, Ne.symm han])]

theorem fiGet_fiOfKeys (L : List String) (n : String) :
    fiGet (fiOfKeys L) n = if n ∈ L then L.indexOf n else 10 ^ 9 := by
  have := fiGet_enumFrom L 0 n
  rw [fiOfKeys, List.enum_eq_enumFrom]
  rw [this]
  simp

theorem indexOf_pairwise_lt (L : List String) (h : L.Nodup) :
    L.Pairwise (fun a b => L.indexOf a < L.indexOf b) := by
  rw [List.pairwise_iff_get]
  intro i j hij
  rw [List.get_indexOf h, List.get_indexOf h]
  exact hij

/-! ## Structure of group_by_deps -/

theorem buildGroupsMap_sorts :
    ∀ (pn : List (String × NameInfo)) (acc gm : List (List Dep × GroupData)),
    List.foldlM (fun gm p => do
      let dk ← sortDeps p.2.deps
      pure (gmAdd gm dk p.1 p.2)) acc pn = some gm →
    ∀ q ∈ pn, (sortDeps q.2.deps).isSome := by
  intro pn
  induction pn with
  | nil => intro acc gm _ q hq; cases hq
  | cons p pn ih =>
      intro acc gm h q hq
      rw [List.foldlM_cons] at h
      cases hs : sortDeps p.2.deps with
      | none =>
          rw [hs] at h
          simp only [Option.bind_eq_bind, Option.none_bind] at h
          cases h
      | some dk =>
          rw [hs] at h
          simp only [Option.bind_eq_bind, Option.some_bind,
            Option.pure_def] at h
          rcases List.mem_cons.mp hq with rfl | hq'
          · simp [hs]
          · exact ih _ gm h q hq'

theorem mkGroup_spec {fi : List (String × Nat)} {p : List Dep × GroupData}
    {g : Group} (h : mkGroup fi p = some g) :
    sortValues p.2.values = some g.values ∧
    g = ⟨sortNamesByFi fi p.2.names, g.values, p.2.dependents,
         minFi fi p.2.names⟩ := by
  rw [mkGroup] at h
  cases hv : sortValues p.2.values with
  | none =>
      rw [hv] at h
      simp only [Option.bind_eq_bind, Option.none_bind] at h
      cases h
  | some vs =>
      rw [hv] at h
      simp only [Option.bind_eq_bind, Option.some_bind, Option.pure_def,
        Option.some.injEq] at h
      subst h
      exact ⟨rfl, rfl⟩

theorem mkGroup_eq_some (fi : List (String × Nat)) (p : List Dep × GroupData)
    (vs : List String) (hv : sortValues p.2.values = some vs) :
    mkGroup fi p =
      some ⟨sortNamesByFi fi p.2.names, vs, p.2.dependents,
            minFi fi p.2.names⟩ := by
  rw [mkGroup, hv]
  rfl

theorem group_by_deps_spec (pn : List (String × NameInfo))
    (fi : List (String × Nat)) (gs : List Group)
    (hnd : (pn.map Prod.fst).Nodup)
    (h : group_by_deps pn fi = some gs) :
    (∀ q ∈ pn, (sortDeps q.2.deps).isSome) ∧
    ∃ pre : List Group, gs = sortGroups pre ∧
      List.Forall₂ (fun dk g =>
        sortValues (gmEntry pn dk).values = some g.values ∧
        g = ⟨sortNamesByFi fi (gmEntry pn dk).names, g.values, dk,
             minFi fi (gmEntry pn dk).names⟩) (gmKeys pn) pre := by
  rw [group_by_deps] at h
  cases hb : buildGroupsMap pn with
  | none =>
      rw [hb] at h
      simp only [Option.bind_eq_bind, Option.none_bind] at h
      cases h
  | some gm =>
      rw [hb] at h
      simp only [Option.bind_eq_bind, Option.some_bind] at h
      cases hm : gm.mapM (mkGroup fi) with
      | none =>
          rw [hm] at h
          simp only [Option.bind_eq_bind, Option.none_bind] at h
          cases h
      | some pre =>
          rw [hm] at h
          simp only [Option.bind_eq_bind, Option.some_bind, Option.pure_def,
            Option.some.injEq] at h
          have hsorts := buildGroupsMap_sorts pn [] gm hb
          refine ⟨hsorts, pre, h.symm, ?_⟩
          have hgm := buildGroupsMap_eq pn hnd hsorts
          rw [hb] at hgm
          injection hgm with hgm
          subst hgm
          have hf2 := mapM_option_spec (mkGroup fi) _ pre hm
          rw [List.forall₂_map_left_iff] at hf2
          refine hf2.imp ?_
          intro dk g hmk
          obtain ⟨hv, hg⟩ := mkGroup_spec hmk
          exact ⟨hv, hg⟩

/-! ## Pipeline assembly helpers -/

theorem forall2_mem_right {α β : Type} {R : α → β → Prop} :
    ∀ {l1 : List α} {l2 : List β}, List.Forall₂ R l1 l2 →
    ∀ b ∈ l2, ∃ a ∈ l1, R a b := by
  intro l1 l2 h
  induction h with
  | nil => intro b hb; cases hb
  | cons hR _ ih =>
      intro b hb
      rcases List.mem_cons.mp hb with rfl | hb'
      · exact ⟨_, by simp, hR⟩
      · obtain ⟨a, ha, hab⟩ := ih b hb'
        exact ⟨a, by simp [ha], hab⟩

theorem forall2_mem_left {α β : Type} {R : α → β → Prop} :
    ∀ {l1 : List α} {l2 : List β}, List.Forall₂ R l1 l2 →
    ∀ a ∈ l1, ∃ b ∈ l2, R a b := by
  intro l1 l2 h
  induction h with
  | nil => intro a ha; cases ha
  | cons hR _ ih =>
      intro a ha
      rcases List.mem_cons.mp ha with rfl | ha'
      · exact ⟨_, by simp, hR⟩
      · obtain ⟨b, hb, hab⟩ := ih a ha'
        exact ⟨b, by simp [hb], hab⟩

theorem pipelineGroups_cases (doc : List InOption) (gs : List Group)
    (h : pipelineGroups doc = some gs) :
    ∃ pre : List Group, gs = sortGroups pre ∧
      List.Forall₂ (fun dk g =>
        sortValues (gmEntry (aggregate_per_name doc).per_name dk).values =
          some g.values ∧
        g = ⟨sortNamesByFi (aggregate_per_name doc).fi
               (gmEntry (aggregate_per_name doc).per_name dk).names,
             g.values, dk,
             minFi (aggregate_per_name doc).fi
               (gmEntry (aggregate_per_name doc).per_name dk).names⟩)
        (gmKeys (aggregate_per_name doc).per_name) pre ∧
      (∀ q ∈ (aggregate_per_name doc).per_name, (sortDeps q.2.deps).isSome) := by
  have hnd : ((aggregate_per_name doc).per_name.map Prod.fst).Nodup :=
    pnKeys_nodup doc
  simp only [pipelineGroups] at h
  obtain ⟨hsorts, pre, hgs, hf2⟩ := group_by_deps_spec _ _ _ hnd h
  exact ⟨pre, hgs, hf2, hsorts⟩

theorem fi_find_of_mem_keys (doc : List InOption) (n : String)
    (hn : n ∈ pnKeys (aggregate_per_name doc)) :
    ∃ i, (aggregate_per_name doc).fi.find? (fun p => p.1 = n) = some (n, i) ∧
      fiGet (aggregate_per_name doc).fi n = i := by
  obtain ⟨hk, hfi, -⟩ := aggregate_keys doc
  rw [hfi]
  rw [hk] at hn
  have hsome : ((fiOfKeys (dedupKeepFirst (explodedNames doc))).find?
      (fun p => p.1 = n)).isSome := by
    rw [List.find?_isSome]
    have : n ∈ (fiOfKeys (dedupKeepFirst (explodedNames doc))).map Prod.fst := by
      rw [fiOfKeys_map_fst]
      exact hn
    obtain ⟨e, he, hfst⟩ := List.mem_map.mp this
    exact ⟨e, he, by simp [hfst]⟩
  obtain ⟨e, he⟩ := Option.isSome_iff_exists.mp hsome
  have he1 : e.1 = n := by
    have := List.find?_some he
    simpa using this
  have heta : e = (n, e.2) := by
    rw [← he1]
  refine ⟨e.2, ?_, ?_⟩
  · rw [he, ← heta]
  · rw [fiGet, he]
    rfl

theorem foldl_addSet_head {α : Type} [DecidableEq α] :
    ∀ (xs acc : List α) (y : α),
    ∃ t, (xs.foldl addSet (y :: acc)) = y :: t := by
  intro xs
  induction xs with
  | nil => intro acc y; exact ⟨acc, rfl⟩
  | cons x xs ih =>
      intro acc y
      rw [List.foldl_cons]
      by_cases hx : x ∈ y :: acc
      · rw [addSet_of_mem hx]
        exact ih acc y
      · rw [addSet_of_not_mem hx]
        exact ih (acc ++ [x]) y

theorem dedupKeepFirst_head {α : Type} [DecidableEq α] (x : α) (xs : List α) :
    ∃ t, dedupKeepFirst (x :: xs) = x :: t := by
  have h : dedupKeepFirst (x :: xs) = xs.foldl addSet [x] := by
    rfl
  rw [h]
  exact foldl_addSet_head xs [] x

theorem head_of_indexOf_zero {L : List String} {m : String} (hm : m ∈ L)
    (h : L.indexOf m = 0) : L.head? = some m := by
  cases L with
  | nil => cases hm
  | cons a rest =>
      by_cases ham : a = m
      · rw [ham]
        rfl
      · rw [List.indexOf_cons_ne rest ham] at h
        cases h

theorem name_entry (doc : List InOption) (n : String)
    (hn : n ∈ pnKeys (aggregate_per_name doc)) :
    ∃ info : NameInfo,
      (aggregate_per_name doc).per_name.find? (fun p => p.1 = n) =
        some (n, info) ∧
      (n, info) ∈ (aggregate_per_name doc).per_name ∧
      pnDeps (aggregate_per_name doc) n = info.deps := by
  obtain ⟨q, hq, hfst⟩ := List.mem_map.mp hn
  have heta : q = (n, q.2) := by rw [← hfst]
  have hmem : (n, q.2) ∈ (aggregate_per_name doc).per_name := heta ▸ hq
  have hfind := (mem_iff_find? (pnKeys_nodup doc) n q.2).mp hmem
  refine ⟨q.2, hfind, hmem, ?_⟩
  rw [pnDeps, hfind]
  rfl

theorem mem_group_names_iff (doc : List InOption) {dk : List Dep} {g : Group}
    (hrel : g = ⟨sortNamesByFi (aggregate_per_name doc).fi
        (gmEntry (aggregate_per_name doc).per_name dk).names, g.values, dk,
        minFi (aggregate_per_name doc).fi
          (gmEntry (aggregate_per_name doc).per_name dk).names⟩)
    (n : String) :
    n ∈ g.names ↔
      ∃ q ∈ (aggregate_per_name doc).per_name, q.1 = n ∧
        sortDeps q.2.deps = some dk := by
  have hnames : g.names = sortNamesByFi (aggregate_per_name doc).fi
      (gmEntry (aggregate_per_name doc).per_name dk).names :=
    congrArg Group.names hrel
  rw [hnames, (sortNamesByFi_perm _ _).mem_iff, mem_gmEntry_names]

/-! ## Exploder lemmas -/

theorem splitCommaData_ne_nil (cs acc : List Char) : splitCommaData cs acc ≠ [] := by
  induction cs generalizing acc with
  | nil => simp [splitCommaData]
  | cons c cs ih =>
      simp only [splitCommaData]
      split
      · simp
      · exact ih _

theorem pySplitComma_ne_nil (s : String) : pySplitComma s ≠ [] := by
  simp [pySplitComma, splitCommaData_ne_nil]

theorem rowsForOption_length (s : Nat) (gid : String) (o : CleanOption) :
    (rowsForOption s gid o).length = (pySplitComma o.name).length := by
  simp [rowsForOption]

theorem enumFrom_map_addIdx {α : Type} (l : List α) (k s : Nat) :
    (List.enumFrom k l).map (fun p => s + p.1 + 1) =
      List.range' (s + k + 1) l.length := by
  induction l generalizing k with
  | nil => simp
  | cons a l ih =>
      rw [List.enumFrom_cons, List.map_cons, ih, List.length_cons,
          List.range'_succ]
      congr 2

theorem rowsForOption_map_sr (s : Nat) (gid : String) (o : CleanOption) :
    (rowsForOption s gid o).map MappingRow.sr =
      List.range' (s + 1) (pySplitComma o.name).length := by
  simp only [rowsForOption, List.map_map]
  have h := enumFrom_map_addIdx (pySplitComma o.name) 0 s
  simpa [List.enum_eq_enumFrom, Function.comp] using h

theorem mapping_rows_fold (os : List CleanOption) : ∀ (k : Nat) (rows : List MappingRow),
    ((List.enumFrom k os).foldl
        (fun (rows : List MappingRow) p =>
          rows ++ rowsForOption rows.length ("G" ++ toString (p.1 + 1)) p.2)
        rows).length =
      rows.length + (os.map (fun o => (pySplitComma o.name).length)).sum ∧
    (rows.map MappingRow.sr = List.range' 1 rows.length →
      ((List.enumFrom k os).foldl
          (fun (rows : List MappingRow) p =>
            rows ++ rowsForOption rows.length ("G" ++ toString (p.1 + 1)) p.2)
          rows).map MappingRow.sr =
        List.range' 1
          (rows.length + (os.map (fun o => (pySplitComma o.name).length)).sum)) := by
  induction os with
  | nil => intro k rows; simp
  | cons o os ih =>
      intro k rows
      rw [List.enumFrom_cons, List.foldl_cons]
      obtain ⟨ih1, ih2⟩ := ih (k + 1)
        (rows ++ rowsForOption rows.length ("G" ++ toString (k + 1)) o)
      constructor
      · rw [ih1]
        simp only [List.length_append, rowsForOption_length, List.map_cons,
          List.sum_cons]
        omega
      · intro hsr
        rw [ih2]
        · congr 1
          simp only [List.length_append, rowsForOption_length, List.map_cons,
            List.sum_cons]
          omega
        · rw [List.map_append, hsr, rowsForOption_map_sr,
              List.length_append, rowsForOption_length]
          have := List.range'_append 1 rows.length (pySplitComma o.name).length 1
          simp only [one_mul] at this
          rw [show rows.length + 1 = 1 + rows.length by omega, this,
              Nat.add_comm]

/-! ## Strip and split-join round trips -/

theorem dropWhile_head_false {α : Type} (p : α → Bool) :
    ∀ (l : List α) {c : α} {t : List α}, l.dropWhile p = c :: t → p c = false := by
  intro l
  induction l with
  | nil => intro c t h; cases h
  | cons a l ih =>
      intro c t h
      rw [List.dropWhile_cons] at h
      by_cases hpa : p a = true
      · rw [if_pos hpa] at h
        exact ih h
      · rw [if_neg hpa] at h
        injection h with h1 _
        subst h1
        simpa using hpa

theorem dropWhile_eq_self_of_head {α : Type} (p : α → Bool) (l : List α)
    (h : ∀ c t, l = c :: t → p c = false) : l.dropWhile p = l := by
  cases l with
  | nil => rfl
  | cons a l => simp [List.dropWhile_cons, h a l rfl]

theorem stripData_head_false (l : List Char) {c : Char} {t : List Char}
    (h : stripData l = c :: t) : c.isWhitespace = false := by
  have hB : List.dropWhile Char.isWhitespace
      ((List.dropWhile Char.isWhitespace l).reverse) = t.reverse ++ [c] := by
    have h2 := congrArg List.reverse h
    rw [stripData, List.reverse_reverse] at h2
    rw [h2, List.reverse_cons]
  have hsplit := List.takeWhile_append_dropWhile Char.isWhitespace
    ((List.dropWhile Char.isWhitespace l).reverse)
  rw [hB] at hsplit
  have h3 := congrArg List.reverse hsplit
  rw [List.reverse_reverse] at h3
  have h4 : (List.takeWhile Char.isWhitespace
      ((List.dropWhile Char.isWhitespace l).reverse) ++
        (t.reverse ++ [c])).reverse =
      [c] ++ (t ++ (List.takeWhile Char.isWhitespace
        ((List.dropWhile Char.isWhitespace l).reverse)).reverse) := by
    rw [List.reverse_append, List.reverse_append, List.reverse_reverse,
      List.reverse_singleton, List.append_assoc]
  exact dropWhile_head_false Char.isWhitespace l (h3.symm.trans h4)

theorem stripData_idem (l : List Char) :
    stripData (stripData l) = stripData l := by
  have h1 : List.dropWhile Char.isWhitespace (stripData l) = stripData l := by
    apply dropWhile_eq_self_of_head
    intro c t he
    exact stripData_head_false l he
  show ((List.dropWhile Char.isWhitespace
    (stripData l)).reverse.dropWhile Char.isWhitespace).reverse = stripData l
  rw [h1]
  have h2 : List.dropWhile Char.isWhitespace ((stripData l).reverse) =
      (stripData l).reverse := by
    apply dropWhile_eq_self_of_head
    intro c t he
    have hB : (stripData l).reverse = List.dropWhile Char.isWhitespace
        ((List.dropWhile Char.isWhitespace l).reverse) := by
      rw [stripData, List.reverse_reverse]
    rw [hB] at he
    exact dropWhile_head_false Char.isWhitespace _ he
  rw [h2, List.reverse_reverse]

theorem mem_stripData {l : List Char} {c : Char} (h : c ∈ stripData l) :
    c ∈ l := by
  rw [stripData, List.mem_reverse] at h
  have h1 := (List.dropWhile_sublist Char.isWhitespace).mem h
  rw [List.mem_reverse] at h1
  exact (List.dropWhile_sublist Char.isWhitespace).mem h1

theorem splitCommaData_no_comma :
    ∀ (cs acc : List Char), (∀ c ∈ acc, c ≠ ',') →
    ∀ ch ∈ splitCommaData cs acc, ∀ c ∈ ch, c ≠ ',' := by
  intro cs
  induction cs with
  | nil =>
      intro acc hacc ch hch c hc
      simp only [splitCommaData, List.mem_singleton] at hch
      subst hch
      exact hacc c (List.mem_reverse.mp hc)
  | cons d cs ih =>
      intro acc hacc ch hch c hc
      simp only [splitCommaData] at hch
      by_cases hd : d = ','
      · rw [if_pos hd] at hch
        rcases List.mem_cons.mp hch with rfl | hch'
        · exact hacc c (List.mem_reverse.mp hc)
        · exact ih [] (by simp) ch hch' c hc
      · rw [if_neg hd] at hch
        refine ih (d :: acc) ?_ ch hch c hc
        intro e he
        rcases List.mem_cons.mp he with rfl | he'
        · exact hd
        · exact hacc e he'

theorem splitCommaData_append_free :
    ∀ (p rest acc : List Char), (∀ c ∈ p, c ≠ ',') →
    splitCommaData (p ++ rest) acc = splitCommaData rest (p.reverse ++ acc) := by
  intro p
  induction p with
  | nil => intro rest acc _; simp
  | cons d p ih =>
      intro rest acc hfree
      have hd : d ≠ ',' := hfree d (by simp)
      simp only [List.cons_append, splitCommaData, if_neg hd]
      show splitCommaData (p ++ rest) (d :: acc) = _
      rw [ih rest (d :: acc) (fun c hc => hfree c (by simp [hc]))]
      congr 1
      simp

theorem splitCommaData_joinWith :
    ∀ (parts : List (List Char)), parts ≠ [] →
    (∀ p ∈ parts, ∀ c ∈ p, c ≠ ',') →
    splitCommaData (joinWith [','] parts) [] = parts := by
  intro parts
  induction parts with
  | nil => intro h; exact absurd rfl h
  | cons p ps ih =>
      intro _ hfree
      cases ps with
      | nil =>
          show splitCommaData (joinWith [','] [p]) [] = [p]
          have h1 : joinWith [','] [p] = p := rfl
          rw [h1]
          have h2 := splitCommaData_append_free p [] []
            (fun c hc => hfree p (by simp) c hc)
          rw [List.append_nil] at h2
          rw [h2]
          simp [splitCommaData]
      | cons q ps' =>
          have hj : joinWith [','] (p :: q :: ps') =
              p ++ (',' :: joinWith [','] (q :: ps')) := by
            show p ++ [','] ++ joinWith [','] (q :: ps') = _
            simp
          rw [hj, splitCommaData_append_free p _ []
            (fun c hc => hfree p (by simp) c hc)]
          rw [List.append_nil]
          show (if (',' : Char) = ',' then p.reverse.reverse ::
              splitCommaData (joinWith [','] (q :: ps')) []
            else splitCommaData (joinWith [','] (q :: ps')) (',' :: p.reverse)) =
            p :: q :: ps'
          rw [if_pos rfl, List.reverse_reverse,
            ih (by simp) (fun r hr c hc => hfree r (by simp [hr]) c hc)]

theorem split_field_tokens (s : String) :
    ∀ t ∈ _split_field s, t ≠ "" ∧ pyStrip t = t ∧ ∀ c ∈ t.data, c ≠ ',' := by
  intro t ht
  rw [_split_field] at ht
  split at ht
  · cases ht
  · have ht' := List.mem_filter.mp ht
    have hne : t ≠ "" := by simpa using ht'.2
    obtain ⟨u, hu, rfl⟩ := List.mem_map.mp ht'.1
    refine ⟨hne, ?_, ?_⟩
    · exact congrArg String.mk (stripData_idem u.data)
    · intro c hc
      have hc' : c ∈ u.data := mem_stripData hc
      obtain ⟨ch, hch, rfl⟩ := List.mem_map.mp hu
      exact splitCommaData_no_comma s.data [] (by simp) ch hch c hc'

theorem split_field_joinComma (l : List String)
    (htok : ∀ t ∈ l, pyStrip t = t ∧ ∀ c ∈ t.data, c ≠ ',') :
    _split_field (joinComma l) = l.filter (fun t => t ≠ "") := by
  by_cases hj : joinComma l = ""
  · cases l with
    | nil =>
        rw [_split_field, if_pos hj]
        rfl
    | cons t ts =>
        cases ts with
        | nil =>
            have hjt : joinComma [t] = t := by
              show String.mk t.data = t
              rfl
            have ht : t = "" := hjt.symm.trans hj
            subst ht
            rw [_split_field, if_pos hj]
            rfl
        | cons u ts' =>
            exfalso
            have hdata : (joinComma (t :: u :: ts')).data =
                t.data ++ [','] ++ joinWith [','] ((u :: ts').map String.data) :=
              rfl
            have h0 := congrArg String.data hj
            rw [hdata] at h0
            simp at h0
  · rw [_split_field, if_neg hj]
    have hsf : pySplitComma (joinComma l) = l := by
      rw [pySplitComma]
      show (splitCommaData (joinWith [','] (l.map String.data)) []).map
        String.mk = l
      have hlne : l ≠ [] := by
        intro h0
        subst h0
        exact hj rfl
      rw [splitCommaData_joinWith (l.map String.data) (by simpa using hlne)
        ?hfree]
      · rw [List.map_map]
        have hcomp : (String.mk ∘ String.data) = id := funext (fun s => rfl)
        rw [hcomp, List.map_id]
      case hfree =>
        intro p hp c hc
        obtain ⟨t, ht, rfl⟩ := List.mem_map.mp hp
        exact (htok t ht).2 c hc
    rw [hsf]
    have hmap : l.map pyStrip = l := by
      conv_rhs => rw [← List.map_id l]
      apply List.map_congr_left
      intro t ht
      exact (htok t ht).1
    rw [hmap]

theorem split_field_joinComma_full (l : List String)
    (htok : ∀ t ∈ l, t ≠ "" ∧ pyStrip t = t ∧ ∀ c ∈ t.data, c ≠ ',') :
    _split_field (joinComma l) = l := by
  rw [split_field_joinComma l (fun t ht => ⟨(htok t ht).2.1, (htok t ht).2.2⟩)]
  apply List.filter_eq_self.mpr
  intro t ht
  simpa using (htok t ht).1

/-! ## Generic helpers for the second-run analysis -/

theorem filterMap_eq_map_of {α β : Type} (f : α → Option β) (g : α → β) :
    ∀ (l : List α), (∀ x ∈ l, f x = some (g x)) → l.filterMap f = l.map g := by
  intro l
  induction l with
  | nil => intro _; rfl
  | cons a l ih =>
      intro h
      rw [List.filterMap_cons_some (h a (by simp)), List.map_cons,
        ih (fun x hx => h x (by simp [hx]))]

theorem updateSet_const {α β : Type} [DecidableEq β] :
    ∀ (l : List α) (b : β) (acc : List β), l ≠ [] →
    updateSet acc (l.map (fun _ => b)) = addSet acc b := by
  intro l
  induction l with
  | nil => intro b acc h; exact absurd rfl h
  | cons a l ih =>
      intro b acc _
      rw [List.map_cons]
      show updateSet (addSet acc b) (l.map fun _ => b) = addSet acc b
      cases l with
      | nil => rfl
      | cons a' l' =>
          rw [ih b (addSet acc b) (by simp)]
          exact addSet_of_mem (self_mem_addSet acc b)

theorem dedup_blocks :
    ∀ (gs : List Group) (acc : List (List Dep)), (∀ g ∈ gs, g.names ≠ []) →
    ((gs.map (fun g => g.names.map fun _ => g.dependents)).flatten).foldl
        addSet acc =
      (gs.map (fun g => g.dependents)).foldl addSet acc := by
  intro gs
  induction gs with
  | nil => intro acc _; rfl
  | cons g gs ih =>
      intro acc h
      rw [List.map_cons, List.flatten_cons, List.foldl_append, List.map_cons,
        List.foldl_cons]
      have h1 : (g.names.map fun _ => g.dependents).foldl addSet acc =
          addSet acc g.dependents :=
        updateSet_const g.names g.dependents acc (h g (by simp))
      rw [h1, ih (addSet acc g.dependents) (fun g' hg' => h g' (by simp [hg']))]

theorem map_nodup_inj {α β : Type} (f : α → β) :
    ∀ {l : List α}, (l.map f).Nodup →
    ∀ {a b : α}, a ∈ l → b ∈ l → f a = f b → a = b := by
  intro l
  induction l with
  | nil => intro _ a b h1; cases h1
  | cons q l ih =>
      intro hnd a b h1 h2 he
      rw [List.map_cons, List.nodup_cons] at hnd
      rcases List.mem_cons.mp h1 with rfl | h1' <;>
        rcases List.mem_cons.mp h2 with rfl | h2'
      · rfl
      · exact absurd (List.mem_map.mpr ⟨b, h2', he.symm⟩) hnd.1
      · exact absurd (List.mem_map.mpr ⟨a, h1', he⟩) hnd.1
      · exact ih hnd.2 h1' h2' he

theorem forall2_pairwise {α β : Type} {R : α → β → Prop} {P : α → α → Prop}
    {S : β → β → Prop}
    (hRS : ∀ a b x y, R a x → R b y → P a b → S x y) :
    ∀ {l1 : List α} {l2 : List β}, List.Forall₂ R l1 l2 → l1.Pairwise P →
      l2.Pairwise S := by
  intro l1 l2 h
  induction h with
  | nil => intro _; exact List.Pairwise.nil
  | @cons a x la lx hax hrest ih =>
      intro hp
      rw [List.pairwise_cons] at hp ⊢
      refine ⟨?_, ih hp.2⟩
      intro y hy
      obtain ⟨b, hb, hby⟩ := forall2_mem_right hrest y hy
      exact hRS a b x y hax hby (hp.1 b hb)

theorem forall2_map_eq {α β : Type} {R : α → β → Prop} {f : β → α}
    (hf : ∀ a b, R a b → f b = a) :
    ∀ {l1 : List α} {l2 : List β}, List.Forall₂ R l1 l2 → l2.map f = l1 := by
  intro l1 l2 h
  induction h with
  | nil => rfl
  | cons hab _ ih => rw [List.map_cons, hf _ _ hab, ih]

theorem pn_entry_of_mem {st : AggState}
    (hnd : (st.per_name.map Prod.fst).Nodup)
    {q : String × NameInfo} (hq : q ∈ st.per_name) :
    pnValues st q.1 = q.2.values ∧ pnDeps st q.1 = q.2.deps := by
  have hq' : (q.1, q.2) ∈ st.per_name := hq
  have hfind := (mem_iff_find? hnd q.1 q.2).mp hq'
  exact ⟨by rw [pnValues, hfind]; rfl, by rw [pnDeps, hfind]; rfl⟩

theorem fiGet_pairwise (L : List String) (h : L.Nodup) :
    L.Pairwise (fun a b => fiGet (fiOfKeys L) a < fiGet (fiOfKeys L) b) := by
  refine List.Pairwise.imp_of_mem ?_ (indexOf_pairwise_lt L h)
  intro a b ha hb hr
  rw [fiGet_fiOfKeys, fiGet_fiOfKeys, if_pos ha, if_pos hb]
  exact hr

theorem pnKeys_tok (doc : List InOption) :
    ∀ n ∈ pnKeys (aggregate_per_name doc),
      n ≠ "" ∧ pyStrip n = n ∧ ∀ c ∈ n.data, c ≠ ',' := by
  intro n hn
  rw [(aggregate_keys doc).1, mem_dedupKeepFirst] at hn
  rw [explodedNames, List.mem_flatten] at hn
  obtain ⟨part, hpart, hnp⟩ := hn
  obtain ⟨o, _, rfl⟩ := List.mem_map.mp hpart
  exact split_field_tokens o.name n hnp

/-! ## First-run facts feeding the second run -/

theorem generate_spec (doc : List InOption) (gs : List Group)
    (cos : List CleanOption) (hg : pipelineGroups doc = some gs)
    (hc : generate_clean_xml_from_root doc = some cos) :
    cos = gs.map groupToClean ∧
    ((gs.map groupToClean).all (fun c => c.deps.all serializableDep)) = true := by
  simp only [generate_clean_xml_from_root] at hc
  simp only [pipelineGroups] at hg
  rw [hg] at hc
  simp only [Option.bind_eq_bind, Option.some_bind] at hc
  split at hc
  next hall =>
    simp only [Option.pure_def, Option.some.injEq] at hc
    exact ⟨hc.symm, hall⟩
  next hall => cases hc

theorem run1_deps_nodup (doc : List InOption) (gs : List Group)
    (hg : pipelineGroups doc = some gs) :
    (gs.map (fun g => g.dependents)).Nodup := by
  obtain ⟨pre, hgs, hf2, hsorts⟩ := pipelineGroups_cases doc gs hg
  have hpre : pre.map (fun g => g.dependents) =
      gmKeys (aggregate_per_name doc).per_name :=
    forall2_map_eq (fun dk g hrel => by rw [hrel.2]) hf2
  have hknd : (gmKeys (aggregate_per_name doc).per_name).Nodup :=
    nodup_dedupKeepFirst _
  have hperm : gs.Perm pre := by rw [hgs]; exact sortGroups_perm pre
  rw [(hperm.map (fun g => g.dependents)).nodup_iff, hpre]
  exact hknd

theorem run1_names_disjoint (doc : List InOption) (gs : List Group)
    (hg : pipelineGroups doc = some gs) :
    gs.Pairwise (fun a b => ∀ n ∈ a.names, n ∉ b.names) := by
  obtain ⟨pre, hgs, hf2, hsorts⟩ := pipelineGroups_cases doc gs hg
  have hknd : List.Pairwise (fun a b => a ≠ b)
      (gmKeys (aggregate_per_name doc).per_name) :=
    nodup_dedupKeepFirst _
  have hpre : pre.Pairwise (fun a b => ∀ n ∈ a.names, n ∉ b.names) := by
    refine forall2_pairwise ?_ hf2 hknd
    intro dk1 dk2 g1 g2 h1 h2 hne n hn1 hn2
    obtain ⟨q1, hq1, hq1n, hq1d⟩ := (mem_group_names_iff doc h1.2 n).mp hn1
    obtain ⟨q2, hq2, hq2n, hq2d⟩ := (mem_group_names_iff doc h2.2 n).mp hn2
    have hq12 : q1 = q2 :=
      keys_nodup_entry_inj (pnKeys_nodup doc) hq1 hq2 (hq1n.trans hq2n.symm)
    rw [hq12, hq2d] at hq1d
    injection hq1d with h
    exact hne h.symm
  have hperm : pre.Perm gs := by rw [hgs]; exact (sortGroups_perm pre).symm
  have hsym : ∀ {x y : Group}, (∀ n ∈ x.names, n ∉ y.names) →
      ∀ n ∈ y.names, n ∉ x.names := by
    intro x y h n hny hnx
    exact h n hnx hny
  exact (List.Perm.pairwise_iff hsym hperm).mp hpre

theorem run1_group_facts (doc : List InOption) (gs : List Group)
    (hg : pipelineGroups doc = some gs) :
    ∀ g ∈ gs, g.names ≠ [] ∧ g.names.Nodup ∧
      (∀ n ∈ g.names, n ∈ pnKeys (aggregate_per_name doc)) ∧
      g.dependents.Pairwise (fun a b => cmpDep a b = some .lt) ∧
      (∀ p ∈ g.values, ∀ r ∈ g.values, pyIsDigit p = pyIsDigit r) ∧
      (∀ v ∈ g.values, pyStrip v = v ∧ ∀ c ∈ v.data, c ≠ ',') := by
  intro g hgmem
  obtain ⟨pre, hgs, hf2, hsorts⟩ := pipelineGroups_cases doc gs hg
  have hgpre : g ∈ pre := by
    rw [hgs] at hgmem
    exact (sortGroups_perm pre).mem_iff.mp hgmem
  obtain ⟨dk, hdkmem, hR⟩ := forall2_mem_right hf2 g hgpre
  obtain ⟨hv, hrel⟩ := hR
  have hnames : g.names = sortNamesByFi (aggregate_per_name doc).fi
      (gmEntry (aggregate_per_name doc).per_name dk).names :=
    congrArg Group.names hrel
  have hperm1 : g.names.Perm
      (gmEntry (aggregate_per_name doc).per_name dk).names := by
    rw [hnames]
    exact sortNamesByFi_perm _ _
  obtain ⟨q, hq, hqd⟩ := (mem_gmKeys _ dk).mp hdkmem
  have hqn : q.1 ∈ (gmEntry (aggregate_per_name doc).per_name dk).names :=
    (mem_gmEntry_names _ dk q.1).mpr ⟨q, hq, rfl, hqd⟩
  have hqg : q.1 ∈ g.names := hperm1.mem_iff.mpr hqn
  have hne : g.names ≠ [] := List.ne_nil_of_mem hqg
  have hentrynd : (gmEntry (aggregate_per_name doc).per_name dk).names.Nodup := by
    have hsub : (gmEntry (aggregate_per_name doc).per_name dk).names.Sublist
        ((aggregate_per_name doc).per_name.map Prod.fst) :=
      List.Sublist.map Prod.fst (List.filter_sublist _)
    exact List.Nodup.sublist hsub (pnKeys_nodup doc)
  have hnd : g.names.Nodup := (hperm1.nodup_iff).mpr hentrynd
  have hkeys : ∀ n ∈ g.names, n ∈ pnKeys (aggregate_per_name doc) := by
    intro n hn
    exact gmEntry_names_sub _ dk n (hperm1.mem_iff.mp hn)
  have hgdep : g.dependents = dk := by rw [hrel]
  have hqdnd : q.2.deps.Nodup := by
    have h1 := pn_entry_of_mem (pnKeys_nodup doc) hq
    have h2 := (aggregate_pnDeps doc q.1).2
    rw [h1.2] at h2
    exact h2
  have hdkpw : dk.Pairwise (fun a b => cmpDep a b = some .lt) :=
    sortDeps_pairwise hqdnd hqd
  have hpermv : g.values.Perm
      (gmEntry (aggregate_per_name doc).per_name dk).values :=
    pySort_perm cmpValue _ _ hv
  have hkind : ∀ p ∈ g.values, ∀ r ∈ g.values, pyIsDigit p = pyIsDigit r := by
    intro p hp r hr
    exact sortValues_kind hv p (hpermv.mem_iff.mp hp) r (hpermv.mem_iff.mp hr)
  have hvtok : ∀ v ∈ g.values, pyStrip v = v ∧ ∀ c ∈ v.data, c ≠ ',' := by
    intro v hvm
    have hve : v ∈ (gmEntry (aggregate_per_name doc).per_name dk).values :=
      hpermv.mem_iff.mp hvm
    obtain ⟨q', hq', hq'd, hq'v⟩ := mem_gmEntry_values _ dk v hve
    have h1 := pn_entry_of_mem (pnKeys_nodup doc) hq'
    have h2 : v ∈ pnValues (aggregate_per_name doc) q'.1 := by
      rw [h1.1]
      exact hq'v
    obtain ⟨o, ho, hno, hvo⟩ := aggregate_pnValues_src doc q'.1 v h2
    rcases hvo with hvo | ⟨rfl, -⟩
    · exact ⟨(split_field_tokens o.value v hvo).2.1,
        (split_field_tokens o.value v hvo).2.2⟩
    · refine ⟨rfl, ?_⟩
      intro c hc
      simp at hc
  refine ⟨hne, hnd, hkeys, ?_, hkind, hvtok⟩
  rw [hgdep]
  exact hdkpw

theorem run1_flatten_nodup (doc : List InOption) (gs : List Group)
    (hg : pipelineGroups doc = some gs) :
    ((gs.map (fun g => g.names)).flatten).Nodup := by
  rw [List.nodup_flatten]
  constructor
  · intro l hl
    obtain ⟨g, hgm, rfl⟩ := List.mem_map.mp hl
    exact (run1_group_facts doc gs hg g hgm).2.1
  · rw [List.pairwise_map]
    refine (run1_names_disjoint doc gs hg).imp ?_
    intro a b h n hna hnb
    exact h n hna hnb

/-! ## Structure of the second run -/

theorem doc2_split_names (doc : List InOption) (gs : List Group)
    (hg : pipelineGroups doc = some gs) :
    ∀ g ∈ gs, _split_field (joinComma g.names) = g.names := by
  intro g hgm
  apply split_field_joinComma_full
  intro t ht
  exact pnKeys_tok doc t ((run1_group_facts doc gs hg g hgm).2.2.1 t ht)

theorem doc2_keys (doc : List InOption) (gs : List Group)
    (hg : pipelineGroups doc = some gs) :
    pnKeys (aggregate_per_name (gs.map cleanOpt)) =
      (gs.map (fun g => g.names)).flatten ∧
    (aggregate_per_name (gs.map cleanOpt)).fi =
      fiOfKeys ((gs.map (fun g => g.names)).flatten) := by
  have hexp : explodedNames (gs.map cleanOpt) =
      (gs.map (fun g => g.names)).flatten := by
    rw [explodedNames, List.map_map]
    congr 1
    apply List.map_congr_left
    intro g hgm
    show _split_field (cleanOpt g).name = g.names
    exact doc2_split_names doc gs hg g hgm
  have hnd := run1_flatten_nodup doc gs hg
  obtain ⟨k1, k2, -⟩ := aggregate_keys (gs.map cleanOpt)
  rw [hexp, dedupKeepFirst_of_nodup hnd] at k1 k2
  exact ⟨k1, k2⟩

theorem doc2_depsOfName (doc : List InOption) (gs : List Group)
    (hg : pipelineGroups doc = some gs) (g : Group) (n : String)
    (hgm : g ∈ gs) (hn : n ∈ g.names) :
    depsOfName (gs.map cleanOpt) n = g.dependents.toFinset := by
  have hsplit := doc2_split_names doc gs hg
  have hdisj := run1_names_disjoint doc gs hg
  obtain ⟨A, B, hAB⟩ := List.append_of_mem hgm
  rw [hAB] at hdisj
  rw [List.pairwise_append] at hdisj
  have hgB := List.pairwise_cons.mp hdisj.2.1
  have hfalseA : ∀ g' ∈ A, n ∉ g'.names := by
    intro g' hg' hn'
    exact hdisj.2.2 g' hg' g (by simp) n hn' hn
  have hfalseB : ∀ g' ∈ B, n ∉ g'.names := by
    intro g' hg' hn'
    exact hgB.1 g' hg' n hn hn'
  have hfil : ((A ++ g :: B).map cleanOpt).filter
      (fun o => n ∈ _split_field o.name) = [cleanOpt g] := by
    rw [List.map_append, List.filter_append, List.map_cons, List.filter_cons]
    have h1 : (A.map cleanOpt).filter
        (fun o => n ∈ _split_field o.name) = [] := by
      rw [List.filter_eq_nil_iff]
      intro o ho
      obtain ⟨g', hg', rfl⟩ := List.mem_map.mp ho
      simp only [decide_eq_true_eq]
      rw [show _split_field (cleanOpt g').name = g'.names from
        hsplit g' (by rw [hAB]; simp [hg'])]
      exact hfalseA g' hg'
    have h2 : (B.map cleanOpt).filter
        (fun o => n ∈ _split_field o.name) = [] := by
      rw [List.filter_eq_nil_iff]
      intro o ho
      obtain ⟨g', hg', rfl⟩ := List.mem_map.mp ho
      simp only [decide_eq_true_eq]
      rw [show _split_field (cleanOpt g').name = g'.names from
        hsplit g' (by rw [hAB]; simp [hg'])]
      exact hfalseB g' hg'
    have hcond : (n ∈ _split_field (cleanOpt g).name) := by
      rw [show _split_field (cleanOpt g).name = g.names from
        hsplit g (by rw [hAB]; simp)]
      exact hn
    rw [h1, h2, if_pos (by simpa using hcond)]
    rfl
  rw [hAB, depsOfName, hfil]
  simp [cleanOpt, reparse, groupToClean]

theorem doc2_sortDeps (doc : List InOption) (gs : List Group)
    (hg : pipelineGroups doc = some gs) (g : Group) (n : String)
    (hgm : g ∈ gs) (hn : n ∈ g.names) :
    sortDeps (pnDeps (aggregate_per_name (gs.map cleanOpt)) n) =
      some g.dependents := by
  have hdofn := doc2_depsOfName doc gs hg g n hgm hn
  have hagg := aggregate_pnDeps (gs.map cleanOpt) n
  have hset : (pnDeps (aggregate_per_name (gs.map cleanOpt)) n).toFinset =
      g.dependents.toFinset := hagg.1.trans hdofn
  have hpw := (run1_group_facts doc gs hg g hgm).2.2.2.1
  have hgnd : g.dependents.Nodup := by
    refine hpw.imp ?_
    intro a b hlt he
    rw [he, cmpDep_refl] at hlt
    simp at hlt
  have hsorted1 : sortDeps g.dependents = some g.dependents :=
    sortDeps_of_sorted hpw
  have hcompG : ∀ a ∈ g.dependents, ∀ b ∈ g.dependents,
      (cmpDep a b).isSome := by
    have hpw' : g.dependents.Pairwise (fun a b => (cmpDep a b).isSome) :=
      hpw.imp (fun h => by rw [h]; rfl)
    have hsym : Symmetric (fun a b : Dep => ((cmpDep a b).isSome : Prop)) := by
      intro a b h
      rw [cmpDep_swap]
      obtain ⟨o, ho⟩ := Option.isSome_iff_exists.mp h
      rw [ho]
      rfl
    intro a ha b hb
    by_cases hab : a = b
    · subst hab
      rw [cmpDep_refl]
      rfl
    · exact hpw'.forall hsym ha hb hab
  have hcomp2 : ∀ a ∈ pnDeps (aggregate_per_name (gs.map cleanOpt)) n,
      ∀ b ∈ pnDeps (aggregate_per_name (gs.map cleanOpt)) n,
      (cmpDep a b).isSome := by
    intro a ha b hb
    have ha' : a ∈ g.dependents := by
      have h1 := List.mem_toFinset.mpr ha
      rw [hset] at h1
      exact List.mem_toFinset.mp h1
    have hb' : b ∈ g.dependents := by
      have h1 := List.mem_toFinset.mpr hb
      rw [hset] at h1
      exact List.mem_toFinset.mp h1
    exact hcompG a ha' b hb'
  obtain ⟨s, hs⟩ := Option.isSome_iff_exists.mp (sortDeps_isSome hcomp2)
  have hse : s = g.dependents :=
    sortDeps_canonical hagg.2 hgnd hset hs hsorted1
  rw [hs, hse]

theorem doc2_pn_dk (doc : List InOption) (gs : List Group)
    (hg : pipelineGroups doc = some gs) :
    ∀ q ∈ (aggregate_per_name (gs.map cleanOpt)).per_name,
      sortDeps q.2.deps =
        some (depKeyOf (aggregate_per_name (gs.map cleanOpt)) q.1) ∧
      ∃ g ∈ gs, q.1 ∈ g.names ∧
        depKeyOf (aggregate_per_name (gs.map cleanOpt)) q.1 = g.dependents := by
  intro q hq
  have hkey : q.1 ∈ pnKeys (aggregate_per_name (gs.map cleanOpt)) :=
    List.mem_map.mpr ⟨q, hq, rfl⟩
  rw [(doc2_keys doc gs hg).1, List.mem_flatten] at hkey
  obtain ⟨l, hl, hnl⟩ := hkey
  obtain ⟨g, hgm, rfl⟩ := List.mem_map.mp hl
  have hsd := doc2_sortDeps doc gs hg g q.1 hgm hnl
  have hpn := pn_entry_of_mem (pnKeys_nodup (gs.map cleanOpt)) hq
  constructor
  · rw [← hpn.2, hsd, depKeyOf, hsd]
    rfl
  · exact ⟨g, hgm, hnl, by rw [depKeyOf, hsd]; rfl⟩

theorem doc2_gmKeys (doc : List InOption) (gs : List Group)
    (hg : pipelineGroups doc = some gs) :
    gmKeys (aggregate_per_name (gs.map cleanOpt)).per_name =
      gs.map (fun g => g.dependents) := by
  rw [gmKeys, filterMap_eq_map_of _
    (fun q => depKeyOf (aggregate_per_name (gs.map cleanOpt)) q.1) _
    (fun q hq => (doc2_pn_dk doc gs hg q hq).1)]
  have hL : (aggregate_per_name (gs.map cleanOpt)).per_name.map
      (fun q => depKeyOf (aggregate_per_name (gs.map cleanOpt)) q.1) =
      ((gs.map (fun g => g.names)).flatten).map
        (depKeyOf (aggregate_per_name (gs.map cleanOpt))) := by
    have h1 : (aggregate_per_name (gs.map cleanOpt)).per_name.map
        (fun q => depKeyOf (aggregate_per_name (gs.map cleanOpt)) q.1) =
        ((aggregate_per_name (gs.map cleanOpt)).per_name.map Prod.fst).map
          (depKeyOf (aggregate_per_name (gs.map cleanOpt))) := by
      rw [List.map_map]
      rfl
    rw [h1]
    have h2 : (aggregate_per_name (gs.map cleanOpt)).per_name.map Prod.fst =
        (gs.map (fun g => g.names)).flatten := (doc2_keys doc gs hg).1
    rw [h2]
  rw [hL]
  have hblocks : ((gs.map (fun g => g.names)).flatten).map
      (depKeyOf (aggregate_per_name (gs.map cleanOpt))) =
      (gs.map (fun g => g.names.map (fun _ => g.dependents))).flatten := by
    rw [List.map_flatten, List.map_map]
    congr 1
    apply List.map_congr_left
    intro g hgm
    show g.names.map (depKeyOf (aggregate_per_name (gs.map cleanOpt))) =
      g.names.map (fun _ => g.dependents)
    apply List.map_congr_left
    intro n hn
    show depKeyOf (aggregate_per_name (gs.map cleanOpt)) n = g.dependents
    rw [depKeyOf, doc2_sortDeps doc gs hg g n hgm hn]
    rfl
  rw [hblocks]
  show ((gs.map (fun g => g.names.map fun _ => g.dependents)).flatten).foldl
    addSet [] = _
  rw [dedup_blocks gs []
    (fun g hgm => (run1_group_facts doc gs hg g hgm).1)]
  show dedupKeepFirst (gs.map (fun g => g.dependents)) = _
  rw [dedupKeepFirst_of_nodup (run1_deps_nodup doc gs hg)]

theorem doc2_gmEntry_names (doc : List InOption) (gs : List Group)
    (hg : pipelineGroups doc = some gs) (g : Group) (hgm : g ∈ gs) :
    (gmEntry (aggregate_per_name (gs.map cleanOpt)).per_name
      g.dependents).names = g.names := by
  show ((aggregate_per_name (gs.map cleanOpt)).per_name.filter
      (fun q => sortDeps q.2.deps = some g.dependents)).map Prod.fst = g.names
  have hflt : (aggregate_per_name (gs.map cleanOpt)).per_name.filter
      (fun q => sortDeps q.2.deps = some g.dependents) =
      (aggregate_per_name (gs.map cleanOpt)).per_name.filter
      (fun q => depKeyOf (aggregate_per_name (gs.map cleanOpt)) q.1 =
        g.dependents) := by
    apply List.filter_congr
    intro q hq
    rw [(doc2_pn_dk doc gs hg q hq).1]
    simp
  rw [hflt]
  have h2 : ((aggregate_per_name (gs.map cleanOpt)).per_name.map
      Prod.fst).filter
      (fun n => depKeyOf (aggregate_per_name (gs.map cleanOpt)) n =
        g.dependents) =
      ((aggregate_per_name (gs.map cleanOpt)).per_name.filter
      (fun q => depKeyOf (aggregate_per_name (gs.map cleanOpt)) q.1 =
        g.dependents)).map Prod.fst := List.filter_map Prod.fst _
  have hk := (doc2_keys doc gs hg).1
  rw [pnKeys] at hk
  rw [← h2, hk]
  have hdepnd := run1_deps_nodup doc gs hg
  obtain ⟨A, B, hAB⟩ := List.append_of_mem hgm
  rw [hAB, List.map_append, List.map_cons] at hdepnd
  rw [List.nodup_append] at hdepnd
  have hgnotB : g.dependents ∉ B.map (fun g => g.dependents) :=
    (List.nodup_cons.mp hdepnd.2.1).1
  have hAne : ∀ g' ∈ A, g'.dependents ≠ g.dependents := by
    intro g' hg' he
    exact hdepnd.2.2 (List.mem_map.mpr ⟨g', hg', rfl⟩) (by rw [he]; simp)
  have hBne : ∀ g' ∈ B, g'.dependents ≠ g.dependents := by
    intro g' hg' he
    exact hgnotB (List.mem_map.mpr ⟨g', hg', he⟩)
  have hsplit2 : (List.map (fun g => g.names) gs).flatten =
      (List.map (fun g => g.names) A).flatten ++
        (g.names ++ (List.map (fun g => g.names) B).flatten) := by
    rw [hAB, List.map_append, List.map_cons, List.flatten_append,
      List.flatten_cons]
  rw [hsplit2, List.filter_append, List.filter_append]
  have hA0 : ((A.map (fun g => g.names)).flatten).filter
      (fun n => depKeyOf (aggregate_per_name (gs.map cleanOpt)) n =
        g.dependents) = [] := by
    rw [List.filter_eq_nil_iff]
    intro a ha
    obtain ⟨l, hl, hal⟩ := List.mem_flatten.mp ha
    obtain ⟨g', hg', rfl⟩ := List.mem_map.mp hl
    simp only [decide_eq_true_eq]
    rw [depKeyOf, doc2_sortDeps doc gs hg g' a (by rw [hAB]; simp [hg']) hal]
    simpa using hAne g' hg'
  have hB0 : ((B.map (fun g => g.names)).flatten).filter
      (fun n => depKeyOf (aggregate_per_name (gs.map cleanOpt)) n =
        g.dependents) = [] := by
    rw [List.filter_eq_nil_iff]
    intro a ha
    obtain ⟨l, hl, hal⟩ := List.mem_flatten.mp ha
    obtain ⟨g', hg', rfl⟩ := List.mem_map.mp hl
    simp only [decide_eq_true_eq]
    rw [depKeyOf, doc2_sortDeps doc gs hg g' a (by rw [hAB]; simp [hg']) hal]
    simpa using hBne g' hg'
  have hG : g.names.filter
      (fun n => depKeyOf (aggregate_per_name (gs.map cleanOpt)) n =
        g.dependents) = g.names := by
    rw [List.filter_eq_self]
    intro n hn
    simp only [decide_eq_true_eq]
    rw [depKeyOf, doc2_sortDeps doc gs hg g n (by rw [hAB]; simp) hn]
    rfl
  rw [hA0, hB0, hG, List.nil_append, List.append_nil]

theorem doc2_entry_values_src (doc : List InOption) (gs : List Group)
    (hg : pipelineGroups doc = some gs) (g : Group) (hgm : g ∈ gs) :
    ∀ v ∈ (gmEntry (aggregate_per_name (gs.map cleanOpt)).per_name
      g.dependents).values,
    ∃ g2 ∈ gs, g2.dependents = g.dependents ∧
      (v ∈ g2.values.filter (fun t => t ≠ "") ∨
       (v = "" ∧ g2.values.filter (fun t => t ≠ "") = [])) := by
  intro v hv
  obtain ⟨q, hq, hqd, hqv⟩ := mem_gmEntry_values _ g.dependents v hv
  obtain ⟨hq1, gq, hgq, hnq, hkq⟩ := doc2_pn_dk doc gs hg q hq
  have hdeq : gq.dependents = g.dependents := by
    rw [hq1] at hqd
    injection hqd with h
    rw [← hkq, h]
  have hpn := pn_entry_of_mem (pnKeys_nodup (gs.map cleanOpt)) hq
  have hvpn : v ∈ pnValues (aggregate_per_name (gs.map cleanOpt)) q.1 := by
    rw [hpn.1]
    exact hqv
  obtain ⟨o, ho, hno, hvo⟩ :=
    aggregate_pnValues_src (gs.map cleanOpt) q.1 v hvpn
  obtain ⟨g2, hg2, rfl⟩ := List.mem_map.mp ho
  have hn2 : q.1 ∈ g2.names := by
    rw [show _split_field (cleanOpt g2).name = g2.names from
      doc2_split_names doc gs hg g2 hg2] at hno
    exact hno
  have hd2 : depKeyOf (aggregate_per_name (gs.map cleanOpt)) q.1 =
      g2.dependents := by
    rw [depKeyOf, doc2_sortDeps doc gs hg g2 q.1 hg2 hn2]
    rfl
  have hdeq2 : g2.dependents = g.dependents := by
    rw [← hd2, hkq, hdeq]
  have hvsplit : _split_field (cleanOpt g2).value =
      g2.values.filter (fun t => t ≠ "") := by
    show _split_field (joinComma g2.values) = _
    exact split_field_joinComma g2.values
      (run1_group_facts doc gs hg g2 hg2).2.2.2.2.2
  rw [hvsplit] at hvo
  exact ⟨g2, hg2, hdeq2, hvo⟩

theorem doc2_values_kind (doc : List InOption) (gs : List Group)
    (hg : pipelineGroups doc = some gs) (g : Group) (hgm : g ∈ gs) :
    ∀ v1 ∈ (gmEntry (aggregate_per_name (gs.map cleanOpt)).per_name
      g.dependents).values,
    ∀ v2 ∈ (gmEntry (aggregate_per_name (gs.map cleanOpt)).per_name
      g.dependents).values, pyIsDigit v1 = pyIsDigit v2 := by
  intro v1 h1 v2 h2
  obtain ⟨ga, hga, hda, hva⟩ := doc2_entry_values_src doc gs hg g hgm v1 h1
  obtain ⟨gb, hgb, hdb, hvb⟩ := doc2_entry_values_src doc gs hg g hgm v2 h2
  have hab : ga = gb := map_nodup_inj _ (run1_deps_nodup doc gs hg) hga hgb
    (hda.trans hdb.symm)
  subst hab
  have hkind := (run1_group_facts doc gs hg ga hga).2.2.2.2.1
  rcases hva with hva | ⟨rfl, hea⟩ <;> rcases hvb with hvb | ⟨rfl, heb⟩
  · exact hkind v1 (List.mem_of_mem_filter hva) v2 (List.mem_of_mem_filter hvb)
  · rw [heb] at hva
    cases hva
  · rw [hea] at hvb
    cases hvb
  · rfl

theorem doc2_pipeline (doc : List InOption) (gs : List Group)
    (hg : pipelineGroups doc = some gs) :
    pipelineGroups (gs.map cleanOpt) =
      some (gs.map (fun g => Group.mk g.names
        ((sortValues (gmEntry (aggregate_per_name (gs.map cleanOpt)).per_name
           g.dependents).values).getD [])
        g.dependents
        (minFi (aggregate_per_name (gs.map cleanOpt)).fi g.names))) := by
  have hnd2 : ((aggregate_per_name (gs.map cleanOpt)).per_name.map
      Prod.fst).Nodup := pnKeys_nodup (gs.map cleanOpt)
  have hsome : ∀ q ∈ (aggregate_per_name (gs.map cleanOpt)).per_name,
      (sortDeps q.2.deps).isSome := by
    intro q hq
    rw [(doc2_pn_dk doc gs hg q hq).1]
    rfl
  have hbuild := buildGroupsMap_eq _ hnd2 hsome
  have hmapM : (gs.map ((fun dk =>
        (dk, gmEntry (aggregate_per_name (gs.map cleanOpt)).per_name dk)) ∘
        (fun g => g.dependents))).mapM
      (mkGroup (aggregate_per_name (gs.map cleanOpt)).fi) =
      some (gs.map (fun g => Group.mk g.names
        ((sortValues (gmEntry (aggregate_per_name (gs.map cleanOpt)).per_name
           g.dependents).values).getD [])
        g.dependents
        (minFi (aggregate_per_name (gs.map cleanOpt)).fi g.names))) := by
    apply mapM_option_of_forall2
    rw [List.forall₂_map_left_iff, List.forall₂_map_right_iff,
      List.forall₂_same]
    intro g hgm
    show mkGroup (aggregate_per_name (gs.map cleanOpt)).fi
      (g.dependents,
        gmEntry (aggregate_per_name (gs.map cleanOpt)).per_name g.dependents) =
      some (Group.mk g.names
        ((sortValues (gmEntry (aggregate_per_name (gs.map cleanOpt)).per_name
           g.dependents).values).getD [])
        g.dependents
        (minFi (aggregate_per_name (gs.map cleanOpt)).fi g.names))
    obtain ⟨vs, hvs⟩ := Option.isSome_iff_exists.mp
      (sortValues_isSome (doc2_values_kind doc gs hg g hgm))
    rw [mkGroup_eq_some (aggregate_per_name (gs.map cleanOpt)).fi
      (g.dependents,
        gmEntry (aggregate_per_name (gs.map cleanOpt)).per_name g.dependents)
      vs hvs]
    have hen := doc2_gmEntry_names doc gs hg g hgm
    have hsort : sortNamesByFi (aggregate_per_name (gs.map cleanOpt)).fi
        g.names = g.names := by
      rw [(doc2_keys doc gs hg).2]
      apply sortNamesByFi_of_sorted
      have hsubl : g.names.Sublist ((gs.map (fun g => g.names)).flatten) :=
        List.sublist_flatten_of_mem (List.mem_map.mpr ⟨g, hgm, rfl⟩)
      exact (fiGet_pairwise _ (run1_flatten_nodup doc gs hg)).sublist hsubl
    refine congrArg some ?_
    show (Group.mk (sortNamesByFi (aggregate_per_name (gs.map cleanOpt)).fi
        (gmEntry (aggregate_per_name (gs.map cleanOpt)).per_name
          g.dependents).names)
      vs
      (gmEntry (aggregate_per_name (gs.map cleanOpt)).per_name
        g.dependents).dependents
      (minFi (aggregate_per_name (gs.map cleanOpt)).fi
        (gmEntry (aggregate_per_name (gs.map cleanOpt)).per_name
          g.dependents).names)) = _
    rw [hen, hsort, hvs]
    rfl
  have hpw2 : (gs.map (fun g => Group.mk g.names
      ((sortValues (gmEntry (aggregate_per_name (gs.map cleanOpt)).per_name
         g.dependents).values).getD [])
      g.dependents
      (minFi (aggregate_per_name (gs.map cleanOpt)).fi g.names))).Pairwise
      (fun a b => a.order_key < b.order_key) := by
    rw [List.pairwise_map]
    have hcross : gs.Pairwise (fun a b => ∀ x ∈ a.names, ∀ y ∈ b.names,
        fiGet (fiOfKeys ((gs.map (fun g => g.names)).flatten)) x <
        fiGet (fiOfKeys ((gs.map (fun g => g.names)).flatten)) y) := by
      have hPW := fiGet_pairwise _ (run1_flatten_nodup doc gs hg)
      rw [List.pairwise_flatten] at hPW
      have h2 := hPW.2
      rw [List.pairwise_map] at h2
      exact h2
    refine List.Pairwise.imp_of_mem ?_ hcross
    intro a b ha hb hr
    show minFi (aggregate_per_name (gs.map cleanOpt)).fi a.names <
      minFi (aggregate_per_name (gs.map cleanOpt)).fi b.names
    rw [(doc2_keys doc gs hg).2]
    obtain ⟨na, hna, hea⟩ := minFi_attained _ a.names
      (run1_group_facts doc gs hg a ha).1
    obtain ⟨nb, hnb, heb⟩ := minFi_attained _ b.names
      (run1_group_facts doc gs hg b hb).1
    rw [hea, heb]
    exact hr na hna nb hnb
  simp only [pipelineGroups]
  rw [group_by_deps, hbuild]
  simp only [Option.bind_eq_bind, Option.some_bind]
  rw [doc2_gmKeys doc gs hg, List.map_map, hmapM]
  simp only [Option.some_bind, Option.pure_def]
  rw [sortGroups_of_sorted hpw2]

/-! ## Claim theorems (concrete evaluations) -/

/-- C4: during aggregation, the value paired with the name at position `i` of
an option's split name list is `values[i]` when that index exists, else the
last element of `values` when `values` is non-empty, else the empty string —
and that paired value is recorded in the name's final aggregated value set.
In particular (see the witness) for names `a,b,c` and values `x`, all three
names receive `"x"`. -/
theorem claim_C4 (doc : List InOption) (opt : InOption) (hopt : opt ∈ doc)
    (i : Nat) (n : String)
    (hn : (_split_field opt.name)[i]? = some n) :
    (if i < (_split_field opt.value).length
     then (_split_field opt.value).getD i ""
     else if _split_field opt.value ≠ []
     then (_split_field opt.value).getLastD ""
     else "") ∈ pnValues (aggregate_per_name doc) n := by
  have hval : (if i < (_split_field opt.value).length
      then (_split_field opt.value).getD i ""
      else if _split_field opt.value ≠ []
      then (_split_field opt.value).getLastD ""
      else "") =
      (_split_field opt.value).getD i ((_split_field opt.value).getLastD "") := by
    by_cases h1 : i < (_split_field opt.value).length
    · rw [if_pos h1, List.getD_eq_getElem?_getD, List.getD_eq_getElem?_getD,
        List.getElem?_eq_getElem h1]
      simp
    · rw [if_neg h1, List.getD_eq_default _ _ (Nat.le_of_not_lt h1)]
      cases _split_field opt.value with
      | nil => simp
      | cons a l => simp
  rw [hval]
  obtain ⟨pre, post, hdoc⟩ := List.append_of_mem hopt
  subst hdoc
  rw [aggregate_per_name, List.foldl_append, List.foldl_cons]
  have base : (_split_field opt.value).getD i ((_split_field opt.value).getLastD "")
      ∈ pnValues (aggOptStep (List.foldl aggOptStep ⟨[], [], 0⟩ pre) opt) n := by
    have h := aggNamesLoop_pnValues_get opt.deps (_split_field opt.value)
      (_split_field opt.name) (List.foldl aggOptStep ⟨[], [], 0⟩ pre) 0 i n hn
    simpa [aggOptStep] using h
  exact pnValues_mono_doc n post _ base

/-- Witness for C4: for an option with names `a,b,c` and single value `x`,
the name `b` (and likewise `a` and `c`) receives the value `"x"`. -/
theorem claim_C4_witness :
    "x" ∈ pnValues (aggregate_per_name [⟨"a,b,c", "x", []⟩]) "b" := by
  have h := claim_C4 [⟨"a,b,c", "x", []⟩] ⟨"a,b,c", "x", []⟩
    (List.mem_singleton.mpr rfl) 1 "b" (by decide)
  have e : (if 1 < (_split_field (InOption.mk "a,b,c" "x" []).value).length
      then (_split_field (InOption.mk "a,b,c" "x" []).value).getD 1 ""
      else if _split_field (InOption.mk "a,b,c" "x" []).value ≠ []
      then (_split_field (InOption.mk "a,b,c" "x" []).value).getLastD ""
      else "") = "x" := by decide
  rw [e] at h
  exact h

/-- C9: the per-name aggregate map and the first-appearance-index map always
have exactly the same key set (indeed the same key list), so the sentinel
default `10**9` of `name_first_index.get(n, 10**9)` is never used: every
member name of every output group has a genuine recorded entry `(n, i)` in
`name_first_index`, its sort key `fiGet` equals that recorded index `i`, and
every group's `order_key` equals the recorded index of one of its member
names. -/
theorem claim_C9 (doc : List InOption) :
    pnKeys (aggregate_per_name doc) =
      (aggregate_per_name doc).fi.map Prod.fst ∧
    (∀ gs, pipelineGroups doc = some gs → ∀ g ∈ gs,
      (∀ n ∈ g.names,
        ∃ i, (aggregate_per_name doc).fi.find? (fun p => p.1 = n) =
            some (n, i) ∧
          fiGet (aggregate_per_name doc).fi n = i) ∧
      ∃ m ∈ g.names, g.order_key = fiGet (aggregate_per_name doc).fi m) := by
  obtain ⟨hk, hfi, -⟩ := aggregate_keys doc
  constructor
  · rw [hk, hfi, fiOfKeys_map_fst]
  · intro gs h g hg
    obtain ⟨pre, hgs, hf2, hsorts⟩ := pipelineGroups_cases doc gs h
    have hgpre : g ∈ pre := (sortGroups_perm pre).mem_iff.mp (hgs ▸ hg)
    obtain ⟨dk, hdk, hvals, hrel⟩ := forall2_mem_right hf2 g hgpre
    have hnames_mem : ∀ n ∈ g.names, n ∈ pnKeys (aggregate_per_name doc) := by
      intro n hn
      obtain ⟨q, hq, hfst, -⟩ := (mem_group_names_iff doc hrel n).mp hn
      exact hfst ▸ List.mem_map.mpr ⟨q, hq, rfl⟩
    constructor
    · intro n hn
      exact fi_find_of_mem_keys doc n (hnames_mem n hn)
    · have hne : (gmEntry (aggregate_per_name doc).per_name dk).names ≠ [] := by
        obtain ⟨q, hq, hsd⟩ := (mem_gmKeys _ dk).mp hdk
        intro hnil
        have hmm : q.1 ∈ (gmEntry (aggregate_per_name doc).per_name dk).names :=
          (mem_gmEntry_names _ dk q.1).mpr ⟨q, hq, rfl, hsd⟩
        rw [hnil] at hmm
        cases hmm
      obtain ⟨m, hm, hmin⟩ := minFi_attained (aggregate_per_name doc).fi _ hne
      refine ⟨m, ?_, ?_⟩
      · have hnames : g.names = sortNamesByFi (aggregate_per_name doc).fi
            (gmEntry (aggregate_per_name doc).per_name dk).names :=
          congrArg Group.names hrel
        rw [hnames, (sortNamesByFi_perm _ _).mem_iff]
        exact hm
      · have hok : g.order_key = minFi (aggregate_per_name doc).fi
            (gmEntry (aggregate_per_name doc).per_name dk).names :=
          congrArg Group.order_key hrel
        rw [hok, hmin]

/-- Witness for C9 at a concrete one-option document. -/
theorem claim_C9_witness :
    ∃ i, (aggregate_per_name [⟨"a", "1", []⟩]).fi.find?
        (fun p => p.1 = "a") = some ("a", i) ∧
      fiGet (aggregate_per_name [⟨"a", "1", []⟩]).fi "a" = i := by
  have h := (claim_C9 [⟨"a", "1", []⟩]).2 [⟨["a"], ["1"], [], 0⟩] (by decide)
    ⟨["a"], ["1"], [], 0⟩ (by decide)
  exact h.1 "a" (by decide)

/-- C5: the output groups are sorted by `order_key` ascending, and for every
input with at least one exploded name, the first group of the output contains
the name that appeared earliest in the document (document order of options,
then position within an option's split name list, i.e. the head of
`explodedNames`). -/
theorem claim_C5 (doc : List InOption) (gs : List Group)
    (h : pipelineGroups doc = some gs) :
    gs.Pairwise (fun a b => a.order_key ≤ b.order_key) ∧
    (∀ n0, (explodedNames doc).head? = some n0 →
      ∃ g0, gs.head? = some g0 ∧ n0 ∈ g0.names) := by
  obtain ⟨pre, hgs, hf2, hsorts⟩ := pipelineGroups_cases doc gs h
  obtain ⟨hk, hfi, -⟩ := aggregate_keys doc
  have hsorted : gs.Pairwise (fun a b => a.order_key ≤ b.order_key) := by
    rw [hgs]
    exact sortGroups_sorted pre
  refine ⟨hsorted, ?_⟩
  intro n0 hn0
  obtain ⟨rest, hexp⟩ : ∃ rest, explodedNames doc = n0 :: rest := by
    cases hexpc : explodedNames doc with
    | nil => rw [hexpc] at hn0; cases hn0
    | cons a r =>
        rw [hexpc] at hn0
        injection hn0 with hn0
        exact ⟨r, by rw [hn0]⟩
  obtain ⟨t, hL⟩ := dedupKeepFirst_head n0 rest
  have hn0L : n0 ∈ dedupKeepFirst (explodedNames doc) := by
    rw [hexp, hL]
    simp
  have hfiGet0 : fiGet (aggregate_per_name doc).fi n0 = 0 := by
    rw [hfi, fiGet_fiOfKeys, if_pos hn0L, hexp, hL]
    exact List.indexOf_cons_self _ _
  have hn0keys : n0 ∈ pnKeys (aggregate_per_name doc) := by
    rw [hk]
    exact hn0L
  obtain ⟨info, hfind, hmem, hdeps⟩ := name_entry doc n0 hn0keys
  obtain ⟨dkn, hdkn⟩ := Option.isSome_iff_exists.mp (hsorts (n0, info) hmem)
  have hdkmem : dkn ∈ gmKeys (aggregate_per_name doc).per_name :=
    (mem_gmKeys _ _).mpr ⟨(n0, info), hmem, hdkn⟩
  obtain ⟨gN, hgN, hvalsN, hrelN⟩ := forall2_mem_left hf2 dkn hdkmem
  have hn0entry : n0 ∈ (gmEntry (aggregate_per_name doc).per_name dkn).names :=
    (mem_gmEntry_names _ dkn n0).mpr ⟨(n0, info), hmem, rfl, hdkn⟩
  have hokN : gN.order_key ≤ 0 := by
    have hok : gN.order_key = minFi (aggregate_per_name doc).fi
        (gmEntry (aggregate_per_name doc).per_name dkn).names :=
      congrArg Group.order_key hrelN
    rw [hok, ← hfiGet0]
    exact minFi_le _ _ n0 hn0entry
  have hgNgs : gN ∈ gs := by
    rw [hgs]
    exact (sortGroups_perm pre).mem_iff.mpr hgN
  obtain ⟨g0, gsrest, hg0⟩ : ∃ g0 r, gs = g0 :: r := by
    cases hcs : gs with
    | nil => rw [hcs] at hgNgs; cases hgNgs
    | cons a r => exact ⟨a, r, rfl⟩
  refine ⟨g0, by rw [hg0]; rfl, ?_⟩
  have hg0le : g0.order_key ≤ gN.order_key := by
    rw [hg0] at hgNgs hsorted
    rcases List.mem_cons.mp hgNgs with rfl | hin
    · exact Nat.le_refl _
    · exact (List.pairwise_cons.mp hsorted).1 gN hin
  have hok0 : g0.order_key = 0 := by omega
  have hg0mem : g0 ∈ gs := by
    rw [hg0]
    simp
  obtain ⟨dk0, hdk0, hvals0, hrel0⟩ := forall2_mem_right hf2 g0
    ((sortGroups_perm pre).mem_iff.mp (hgs ▸ hg0mem))
  have hne0 : (gmEntry (aggregate_per_name doc).per_name dk0).names ≠ [] := by
    obtain ⟨q, hq, hsd⟩ := (mem_gmKeys _ dk0).mp hdk0
    intro hnil
    have hmm : q.1 ∈ (gmEntry (aggregate_per_name doc).per_name dk0).names :=
      (mem_gmEntry_names _ dk0 q.1).mpr ⟨q, hq, rfl, hsd⟩
    rw [hnil] at hmm
    cases hmm
  obtain ⟨m, hmentry, hmin0⟩ := minFi_attained (aggregate_per_name doc).fi _ hne0
  have hok : g0.order_key = minFi (aggregate_per_name doc).fi
      (gmEntry (aggregate_per_name doc).per_name dk0).names := by
    rw [hrel0]
  have hfiGetm : fiGet (aggregate_per_name doc).fi m = 0 := by
    rw [← hmin0, ← hok]
    exact hok0
  have hmkeys : m ∈ pnKeys (aggregate_per_name doc) :=
    gmEntry_names_sub _ _ m hmentry
  have hmL : m ∈ dedupKeepFirst (explodedNames doc) := by
    rw [← hk]
    exact hmkeys
  have hmn0 : m = n0 := by
    rw [hfi, fiGet_fiOfKeys, if_pos hmL] at hfiGetm
    have hhead := head_of_indexOf_zero hmL hfiGetm
    rw [hexp, hL] at hhead
    injection hhead with hhead
    exact hhead.symm
  have hnames0 : g0.names = sortNamesByFi (aggregate_per_name doc).fi
      (gmEntry (aggregate_per_name doc).per_name dk0).names :=
    congrArg Group.names hrel0
  rw [← hmn0, hnames0, (sortNamesByFi_perm _ _).mem_iff]
  exact hmentry

/-- Witness for C5 at a concrete two-option document: the name `b` appears
first in the input and the first output group contains it. -/
theorem claim_C5_witness :
    ([⟨["b"], ["2"], [], 0⟩, ⟨["a"], ["1"], [(some "d", some "n")], 1⟩] :
        List Group).Pairwise (fun a b => a.order_key ≤ b.order_key) ∧
    ∃ g0, ([⟨["b"], ["2"], [], 0⟩,
            ⟨["a"], ["1"], [(some "d", some "n")], 1⟩] :
        List Group).head? = some g0 ∧ "b" ∈ g0.names := by
  have h := claim_C5 [⟨"b", "2", []⟩, ⟨"a", "1", [(some "d", some "n")]⟩]
    [⟨["b"], ["2"], [], 0⟩, ⟨["a"], ["1"], [(some "d", some "n")], 1⟩]
    (by decide)
  exact ⟨h.1, h.2 "b" (by decide)⟩

/-- C1: whenever the grouping step produces output groups, they partition the
set of distinct exploded names — every name appearing in any option belongs
to exactly one output group, the groups contain no other names — and two
names are co-grouped iff their full dependent sets (as finite sets, ignoring
order and duplicates) are equal. -/
theorem claim_C1 (doc : List InOption) (gs : List Group)
    (h : pipelineGroups doc = some gs) :
    (∀ n ∈ explodedNames doc, ∃! g, g ∈ gs ∧ n ∈ g.names) ∧
    (∀ g ∈ gs, ∀ n ∈ g.names, n ∈ explodedNames doc) ∧
    (∀ n ∈ explodedNames doc, ∀ m ∈ explodedNames doc,
      ((∃ g ∈ gs, n ∈ g.names ∧ m ∈ g.names) ↔
        depsOfName doc n = depsOfName doc m)) := by
  obtain ⟨pre, hgs, hf2, hsorts⟩ := pipelineGroups_cases doc gs h
  obtain ⟨hk, -, -⟩ := aggregate_keys doc
  have hmem_gs : ∀ g : Group, g ∈ pre ↔ g ∈ gs := by
    intro g
    rw [hgs]
    exact ((sortGroups_perm pre).mem_iff).symm
  have hkeys_iff : ∀ n, n ∈ explodedNames doc ↔
      n ∈ pnKeys (aggregate_per_name doc) := by
    intro n
    rw [hk, mem_dedupKeepFirst]
  have hdk_of : ∀ n ∈ pnKeys (aggregate_per_name doc),
      ∃ (info : NameInfo) (dk : List Dep),
        (n, info) ∈ (aggregate_per_name doc).per_name ∧
        pnDeps (aggregate_per_name doc) n = info.deps ∧
        sortDeps info.deps = some dk := by
    intro n hn
    obtain ⟨info, hfind, hmem, hdeps⟩ := name_entry doc n hn
    obtain ⟨dk, hdk⟩ := Option.isSome_iff_exists.mp (hsorts (n, info) hmem)
    exact ⟨info, dk, hmem, hdeps, hdk⟩
  have hmemchar : ∀ (n : String) (info : NameInfo) (dk : List Dep),
      (n, info) ∈ (aggregate_per_name doc).per_name →
      sortDeps info.deps = some dk →
      ∀ (dk' : List Dep) (g' : Group),
        g' = ⟨sortNamesByFi (aggregate_per_name doc).fi
            (gmEntry (aggregate_per_name doc).per_name dk').names, g'.values,
            dk', minFi (aggregate_per_name doc).fi
              (gmEntry (aggregate_per_name doc).per_name dk').names⟩ →
        (n ∈ g'.names ↔ dk' = dk) := by
    intro n info dk hmem hdk dk' g' hrel'
    rw [mem_group_names_iff doc hrel' n]
    constructor
    · rintro ⟨q, hq, hfst, hsd⟩
      have hq_eq : q = (n, info) :=
        keys_nodup_entry_inj (pnKeys_nodup doc) hq hmem (by simp [hfst])
      rw [hq_eq] at hsd
      injection hsd.symm.trans hdk
    · rintro rfl
      exact ⟨(n, info), hmem, rfl, hdk⟩
  refine ⟨?_, ?_, ?_⟩
  · -- partition: existence and uniqueness
    intro n hn
    obtain ⟨info, dk, hmem, hdeps, hdk⟩ := hdk_of n ((hkeys_iff n).mp hn)
    have hdkmem : dk ∈ gmKeys (aggregate_per_name doc).per_name :=
      (mem_gmKeys _ _).mpr ⟨(n, info), hmem, hdk⟩
    obtain ⟨g, hgpre, hv, hrel⟩ := forall2_mem_left hf2 dk hdkmem
    have hng : n ∈ g.names := (hmemchar n info dk hmem hdk dk g hrel).mpr rfl
    refine ⟨g, ⟨(hmem_gs g).mp hgpre, hng⟩, ?_⟩
    rintro g' ⟨hg'gs, hng'⟩
    obtain ⟨dk', hdk'mem, hv', hrel'⟩ := forall2_mem_right hf2 g'
      ((hmem_gs g').mpr hg'gs)
    have hdd : dk' = dk := (hmemchar n info dk hmem hdk dk' g' hrel').mp hng'
    subst hdd
    injection hv'.symm.trans hv with hvals
    rw [hrel', hrel, hvals]
  · -- groups contain only exploded names
    intro g hg n hn
    obtain ⟨dk, hdkmem, hv, hrel⟩ := forall2_mem_right hf2 g ((hmem_gs g).mpr hg)
    obtain ⟨q, hq, hfst, -⟩ := (mem_group_names_iff doc hrel n).mp hn
    exact (hkeys_iff n).mpr (hfst ▸ List.mem_map.mpr ⟨q, hq, rfl⟩)
  · -- co-grouped iff equal dependent sets
    intro n hn m hm
    obtain ⟨infon, dkn, hmemn, hdepsn, hdkn⟩ := hdk_of n ((hkeys_iff n).mp hn)
    obtain ⟨infom, dkm, hmemm, hdepsm, hdkm⟩ := hdk_of m ((hkeys_iff m).mp hm)
    have e1 : depsOfName doc n = dkn.toFinset := by
      rw [← (aggregate_pnDeps doc n).1, hdepsn, ← sortDeps_toFinset hdkn]
    have e2 : depsOfName doc m = dkm.toFinset := by
      rw [← (aggregate_pnDeps doc m).1, hdepsm, ← sortDeps_toFinset hdkm]
    constructor
    · rintro ⟨g, hg, hng, hmg⟩
      obtain ⟨dk, hdkmem, hv, hrel⟩ := forall2_mem_right hf2 g
        ((hmem_gs g).mpr hg)
      have h1 : dk = dkn := (hmemchar n infon dkn hmemn hdkn dk g hrel).mp hng
      have h2 : dk = dkm := (hmemchar m infom dkm hmemm hdkm dk g hrel).mp hmg
      rw [e1, e2, h1.symm.trans h2]
    · intro hdeq
      have hnodn : infon.deps.Nodup := by
        rw [← hdepsn]
        exact (aggregate_pnDeps doc n).2
      have hnodm : infom.deps.Nodup := by
        rw [← hdepsm]
        exact (aggregate_pnDeps doc m).2
      have hset : infon.deps.toFinset = infom.deps.toFinset := by
        rw [← hdepsn, ← hdepsm, (aggregate_pnDeps doc n).1,
          (aggregate_pnDeps doc m).1]
        exact hdeq
      have hdd : dkn = dkm := sortDeps_canonical hnodn hnodm hset hdkn hdkm
      obtain ⟨g, hgpre, hv, hrel⟩ := forall2_mem_left hf2 dkn
        ((mem_gmKeys _ _).mpr ⟨(n, infon), hmemn, hdkn⟩)
      exact ⟨g, (hmem_gs g).mp hgpre,
        (hmemchar n infon dkn hmemn hdkn dkn g hrel).mpr rfl,
        (hmemchar m infom dkm hmemm hdkm dkn g hrel).mpr hdd⟩

/-- Witness for C1 at the concrete two-option document of the C7 scenario. -/
theorem claim_C1_witness :
    ∃! g, g ∈ [(⟨["x", "y", "z"], ["1", "2", "3"],
        [(some "d1", some "n1")], 0⟩ : Group)] ∧ "y" ∈ g.names := by
  have h := claim_C1
    [⟨"x,y", "1,2", [(some "d1", some "n1")]⟩,
     ⟨"z", "3", [(some "d1", some "n1")]⟩]
    [⟨["x", "y", "z"], ["1", "2", "3"], [(some "d1", some "n1")], 0⟩]
    (by decide)
  exact h.1 "y" (by decide)

/-- C2: the natural-key sort of a group's value set does NOT always succeed:
on the input `<option name="p,q" value="1,a"/>` the names `p` and `q` share
the empty dependent set and form one group whose value set `{"1", "a"}` mixes
an all-digit value (integer key) with a non-digit value (string key), and the
comparison of line 91 raises `TypeError`, so the grouping step errors instead
of producing a total order. -/
theorem claim_C2 :
    pipelineGroups [⟨"p,q", "1,a", []⟩] = none := by decide

/-- C3: an absent dependent attribute does cause the pipeline to raise: for
`<option name="a"><dependent name="n"/><dependent id="d" name="n"/></option>`
the aggregator stores `(None, "n")` (line 51 uses `d.get("id")` with no
default), and `sorted` at line 79 compares `None` with the string `"d"`,
raising `TypeError`; no cleaned document is produced. -/
theorem claim_C3 :
    generate_clean_xml_from_root
      [⟨"a", "", [(none, some "n"), (some "d", some "n")]⟩] = none := by decide

/-- C7: on the two-option input
`<option name="x,y" value="1,2"><dependent id="d1" name="n1"/></option>`,
`<option name="z" value="3"><dependent id="d1" name="n1"/></option>` the
pipeline yields exactly one group with names `x,y,z` and values `1,2,3`, and
the exploder yields exactly three mapping rows sharing group id `G1` and the
dependents string `"d1:n1"`, with serials 1, 2, 3. -/
theorem claim_C7 :
    pipelineGroups
      [⟨"x,y", "1,2", [(some "d1", some "n1")]⟩,
       ⟨"z", "3", [(some "d1", some "n1")]⟩] =
      some [⟨["x", "y", "z"], ["1", "2", "3"], [(some "d1", some "n1")], 0⟩] ∧
    generate_clean_xml_from_root
      [⟨"x,y", "1,2", [(some "d1", some "n1")]⟩,
       ⟨"z", "3", [(some "d1", some "n1")]⟩] =
      some [⟨"x,y,z", "1,2,3", [(some "d1", some "n1")]⟩] ∧
    mapping_rows [⟨"x,y,z", "1,2,3", [(some "d1", some "n1")]⟩] =
      [⟨1, "G1", "x", "1", "d1:n1"⟩, ⟨2, "G1", "y", "2", "d1:n1"⟩,
       ⟨3, "G1", "z", "3", "d1:n1"⟩] := by decide

/-- C6 counterexample: the pipeline is NOT idempotent on value sets. For the
input `<option name="x" value="1"/><option name="x" value="2"/>` the cleaned
document is `<option name="x" value="1,2"/>` (one group, value set
`{"1","2"}`), but re-running the pipeline on that cleaned document pairs the
single name `x` only with the first value `1`, yielding a group whose value
set `{"1"}` differs from the original group's value set. -/
theorem claim_C6_counterexample :
    generate_clean_xml_from_root [⟨"x", "1", []⟩, ⟨"x", "2", []⟩] =
      some [⟨"x", "1,2", []⟩] ∧
    pipelineGroups [⟨"x", "1", []⟩, ⟨"x", "2", []⟩] =
      some [⟨["x"], ["1", "2"], [], 0⟩] ∧
    pipelineGroups ([⟨"x", "1,2", []⟩].map reparse) =
      some [⟨["x"], ["1"], [], 0⟩] ∧
    (["1"] : List String).toFinset ≠ (["1", "2"] : List String).toFinset := by
  decide

/-- C6: the amended idempotence property. Whenever the pipeline produces
groups `gs` and a cleaned document `cos`, re-running the full pipeline on the
re-parsed cleaned document succeeds and yields groups with exactly the same
member-name lists and the same dependent lists, in the same order, and a
second cleaned document; the value sets, however, are not preserved in
general (see the counterexample), so the original claim holds only for the
name-sets and dependent-sets. -/
theorem claim_C6 (doc : List InOption) (gs : List Group)
    (cos : List CleanOption)
    (hg : pipelineGroups doc = some gs)
    (hc : generate_clean_xml_from_root doc = some cos) :
    ∃ gs2 : List Group,
      pipelineGroups (cos.map reparse) = some gs2 ∧
      gs2.map (fun g => (g.names, g.dependents)) =
        gs.map (fun g => (g.names, g.dependents)) ∧
      generate_clean_xml_from_root (cos.map reparse) =
        some (gs2.map groupToClean) := by
  obtain ⟨hcos, hall⟩ := generate_spec doc gs cos hg hc
  have hdoc2 : cos.map reparse = gs.map cleanOpt := by
    rw [hcos, List.map_map]
    rfl
  have hpipe := doc2_pipeline doc gs hg
  refine ⟨gs.map (fun g => Group.mk g.names
      ((sortValues (gmEntry (aggregate_per_name (gs.map cleanOpt)).per_name
         g.dependents).values).getD [])
      g.dependents
      (minFi (aggregate_per_name (gs.map cleanOpt)).fi g.names)),
    ?_, ?_, ?_⟩
  · rw [hdoc2]
    exact hpipe
  · rw [List.map_map]
    rfl
  · rw [hdoc2]
    simp only [generate_clean_xml_from_root]
    have h1 : group_by_deps (aggregate_per_name (gs.map cleanOpt)).per_name
        (aggregate_per_name (gs.map cleanOpt)).fi =
        some (gs.map (fun g => Group.mk g.names
          ((sortValues (gmEntry (aggregate_per_name
             (gs.map cleanOpt)).per_name g.dependents).values).getD [])
          g.dependents
          (minFi (aggregate_per_name (gs.map cleanOpt)).fi g.names))) := by
      simpa only [pipelineGroups] using hpipe
    rw [h1]
    simp only [Option.bind_eq_bind, Option.some_bind]
    have hcheck : ((gs.map (fun g => Group.mk g.names
        ((sortValues (gmEntry (aggregate_per_name
           (gs.map cleanOpt)).per_name g.dependents).values).getD [])
        g.dependents
        (minFi (aggregate_per_name (gs.map cleanOpt)).fi
          g.names))).map groupToClean).all
        (fun c => c.deps.all serializableDep) = true := by
      rw [List.all_eq_true] at hall ⊢
      intro c hcm
      obtain ⟨g2, hg2, rfl⟩ := List.mem_map.mp hcm
      obtain ⟨g, hgm, rfl⟩ := List.mem_map.mp hg2
      exact hall (groupToClean g) (List.mem_map.mpr ⟨g, hgm, rfl⟩)
    rw [if_pos hcheck]
    rfl

theorem claim_C6_witness :
    pipelineGroups [⟨"x", "1", []⟩, ⟨"x", "2", []⟩] =
      some [⟨["x"], ["1", "2"], [], 0⟩] ∧
    generate_clean_xml_from_root [⟨"x", "1", []⟩, ⟨"x", "2", []⟩] =
      some [⟨"x", "1,2", []⟩] ∧
    ∃ gs2 : List Group,
      pipelineGroups ([(⟨"x", "1,2", []⟩ : CleanOption)].map reparse) =
        some gs2 ∧
      gs2.map (fun g => (g.names, g.dependents)) =
        [(⟨["x"], ["1", "2"], [], 0⟩ : Group)].map
          (fun g => (g.names, g.dependents)) ∧
      generate_clean_xml_from_root
          ([(⟨"x", "1,2", []⟩ : CleanOption)].map reparse) =
        some (gs2.map groupToClean) :=
  ⟨by decide, by decide,
    claim_C6 [⟨"x", "1", []⟩, ⟨"x", "2", []⟩] [⟨["x"], ["1", "2"], [], 0⟩]
      [⟨"x", "1,2", []⟩] (by decide) (by decide)⟩

/-- C8: for every cleaned document, the number of mapping rows equals the
sum, over the document's `<option>` elements, of the number of
comma-separated names in the `name` attribute (the raw `split(",")` count),
and the serial numbers are exactly `1, 2, …, N` — 1-based and strictly
increasing across the whole table. -/
theorem claim_C8 (opts : List CleanOption) :
    (mapping_rows opts).length =
      (opts.map (fun o => (pySplitComma o.name).length)).sum ∧
    (mapping_rows opts).map MappingRow.sr =
      List.range' 1 (mapping_rows opts).length := by
  obtain ⟨h1, h2⟩ := mapping_rows_fold opts 0 []
  have heq : mapping_rows opts =
      (List.enumFrom 0 opts).foldl
        (fun (rows : List MappingRow) p =>
          rows ++ rowsForOption rows.length ("G" ++ toString (p.1 + 1)) p.2) [] := by
    simp only [mapping_rows, List.enum_eq_enumFrom]
  refine ⟨?_, ?_⟩
  · rw [heq, h1]; simp
  · rw [heq, h2 (by simp), h1]

/-- C10: splitting any attribute on `","` yields at least one token (the
empty string yields the single empty token), so the `else ""` fallback of the
exploder's value selection — guarded by `values == []` — is unreachable; and
an option whose `name` attribute is the empty string yields exactly one
mapping row whose name is the empty string, not zero rows. -/
theorem claim_C10 :
    pySplitComma "" = [""] ∧
    (∀ s : String, pySplitComma s ≠ []) ∧
    (∀ (startSr : Nat) (gid : String) (o : CleanOption), o.name = "" →
      (rowsForOption startSr gid o).map MappingRow.option_name = [""]) := by
  refine ⟨by decide, pySplitComma_ne_nil, ?_⟩
  intro startSr gid o h
  have hsplit : pySplitComma o.name = [""] := by rw [h]; decide
  simp [rowsForOption, hsplit, List.enum_eq_enumFrom, List.enumFrom_cons]
  decide

/-- Witness for C10 at a concrete option with an empty name attribute. -/
theorem claim_C10_witness :
    (rowsForOption 0 "G1" ⟨"", "v", []⟩).map MappingRow.option_name = [""] :=
  claim_C10.2.2 0 "G1" ⟨"", "v", []⟩ rfl

end XMLDedupe
